import Mathlib

/-!
Verification of the swite development-server core against its design notes.

The TypeScript sources (import rewriter, URL resolver, module resolver,
compilation cache, package registry, workspace locator, HMR engine) are
shallowly embedded below.  JavaScript strings are modeled as `List Char`
(the sources only manipulate ASCII text); JavaScript's `Map` is modeled as
an association list with insertion-order semantics; filesystem access,
`fs.stat`, `fs.realpath` and the external `es-module-lexer` are passed in
as explicit function parameters, and a thrown exception is an `Except`
error value.  Node's `path.posix` functions are modeled below as well.
-/

namespace Swite

/-- JavaScript strings, as their character lists (the sources are ASCII). -/
abbrev Str := List Char

/-- Coerce a Lean string literal to the model. -/
def str (s : String) : Str := s.data

/-- Double-quote character. -/
def dq : Char := Char.ofNat 34

/-- Single-quote character. -/
def sq : Char := Char.ofNat 39

/-- ASCII lower-casing, the fragment of JS `toLowerCase` these sources use. -/
def lc (c : Char) : Char :=
  if 'A' ≤ c ∧ c ≤ 'Z' then Char.ofNat (c.toNat + 32) else c

/-- JS `s.toLowerCase()` (ASCII fragment). -/
def lowerS (s : Str) : Str := s.map lc

/-- JS `s.startsWith(p)`. -/
def startsW (s p : Str) : Bool := p.isPrefixOf s

/-- JS `s.endsWith(p)`. -/
def endsW (s p : Str) : Bool := p.isSuffixOf s

/-- JS `s.includes(p)`: substring occurrence test. -/
def subS (p : Str) : Str → Bool
  | [] => p.isEmpty
  | c :: cs => p.isPrefixOf (c :: cs) || subS p cs

/-- Index of the first occurrence of `p` in `s` (`s.indexOf(p)` when ≥ 0). -/
def idxSub (p : Str) : Str → Option Nat
  | [] => if p.isEmpty then some 0 else none
  | c :: cs =>
    if p.isPrefixOf (c :: cs) then some 0
    else (idxSub p cs).map (· + 1)

/-- Clamp a JS index argument (negative counts from the end). -/
def clampIdx (len : Nat) (i : Int) : Nat :=
  if i < 0 then len - (-i).toNat else min i.toNat len

/-- JS `s.slice(a, b)` with possibly negative arguments. -/
def jsSlice (s : Str) (a b : Int) : Str :=
  (s.take (clampIdx s.length b)).drop (clampIdx s.length a)

/-- JS `s.slice(a)` (to the end of the string). -/
def jsSliceFrom (s : Str) (a : Int) : Str :=
  s.drop (clampIdx s.length a)

/-- JS `s.replace(/\\/g, "/")`: every backslash becomes a forward slash. -/
def normSlashes (s : Str) : Str :=
  s.map fun c => if c = '\\' then '/' else c

/-- One step of a global regex replacement: `f` inspects the current suffix
and, when a match starts right here, returns the matched text together with
its replacement.  Fueled so the kernel can evaluate it. -/
def scanReplF (f : Str → Option (Str × Str)) : Nat → Str → Str
  | 0, s => s
  | _ + 1, [] => []
  | fu + 1, c :: cs =>
    match f (c :: cs) with
    | some (m, rep) =>
      if m.length = 0 then c :: scanReplF f fu cs
      else rep ++ scanReplF f fu (List.drop (m.length - 1) cs)
    | none => c :: scanReplF f fu cs

/-- Left-to-right, non-overlapping global replacement driven by `f`
(the scanning behavior of JS `String.prototype.replace` with a `g` regex). -/
def scanRepl (f : Str → Option (Str × Str)) (s : Str) : Str :=
  scanReplF f s.length s

/-- Matcher for a literal (non-empty) pattern. -/
def tryLit (pat rep : Str) (t : Str) : Option (Str × Str) :=
  if pat ≠ [] ∧ pat.isPrefixOf t then some (pat, rep) else none

/-- JS `s.replace(/pat/g, rep)` for a literal pattern `pat`. -/
def replA (pat rep s : Str) : Str := scanRepl (tryLit pat rep) s

/-- Case-insensitive literal matcher (regex `i` flag), ASCII. -/
def tryLitCI (pat rep : Str) (t : Str) : Option (Str × Str) :=
  if pat ≠ [] ∧ (lowerS pat).isPrefixOf (lowerS t) then
    some (t.take pat.length, rep)
  else none

/-- JS `s.replace(/pat/gi, rep)` for a literal pattern `pat`, ASCII. -/
def replACI (pat rep s : Str) : Str := scanRepl (tryLitCI pat rep) s

/-- JS `s.replace("pat", rep)` / `s.replace(/pat/, rep)`:
first occurrence only. -/
def replF (pat rep : Str) : Str → Str
  | [] => []
  | c :: cs =>
    if pat ≠ [] ∧ pat.isPrefixOf (c :: cs) then rep ++ List.drop (pat.length - 1) cs
    else c :: replF pat rep cs

/-- JS `s.replace(/\.js$/, ".ts")`-style suffix swap. -/
def replSuffix (pat rep s : Str) : Str :=
  if endsW s pat then s.take (s.length - pat.length) ++ rep else s

/-- Case-insensitive variant of `replSuffix` (regex `i` flag), ASCII. -/
def replSuffixCI (pat rep s : Str) : Str :=
  if endsW (lowerS s) (lowerS pat) then s.take (s.length - pat.length) ++ rep else s

/-- Split a string on a character, keeping empty pieces (JS `s.split(c)`). -/
def splitCh (c : Char) : Str → List Str
  | [] => [[]]
  | x :: xs =>
    if x = c then [] :: splitCh c xs
    else
      match splitCh c xs with
      | [] => [[x]]
      | p :: ps => (x :: p) :: ps

/-- Join pieces with a separator character. -/
def joinCh (c : Char) : List Str → Str
  | [] => []
  | [p] => p
  | p :: ps => p ++ c :: joinCh c ps

/-!
Model of Node's `path.posix`.  Segment normalization: empty and `.` segments
vanish, `..` pops (and is dropped at the root of an absolute path).  The
sources only feed these functions canonical separators, so trailing-slash
preservation is not modeled.
-/

/-- Process one segment list against a stack (most recent segment first). -/
def normStack (isAbs : Bool) : List Str → List Str → List Str
  | stack, [] => stack
  | stack, seg :: rest =>
    if seg = [] ∨ seg = str "." then normStack isAbs stack rest
    else if seg = str ".." then
      match stack with
      | [] => if isAbs then normStack isAbs [] rest else normStack isAbs [str ".."] rest
      | top :: stk =>
        if top = str ".." then normStack isAbs (seg :: top :: stk) rest
        else normStack isAbs stk rest
    else normStack isAbs (seg :: stack) rest

/-- Node `path.posix.normalize`. -/
def normalizeP (s : Str) : Str :=
  let isAbs := startsW s (str "/")
  let body := joinCh '/' ((normStack isAbs [] (splitCh '/' s)).reverse)
  if isAbs then '/' :: body
  else if body = [] then str "." else body

/-- Node `path.posix.join` for two arguments. -/
def joinP (a b : Str) : Str :=
  if a = [] ∧ b = [] then str "."
  else if a = [] then normalizeP b
  else if b = [] then normalizeP a
  else normalizeP (a ++ '/' :: b)

/-- Node `path.posix.isAbsolute`. -/
def isAbsP (s : Str) : Bool := startsW s (str "/")

/-- Node `path.posix.dirname`. -/
def dirnameP (s : Str) : Str :=
  if s = [] then str "."
  else
    let abs := isAbsP s
    let t := (s.reverse.dropWhile (· = '/')).reverse
    match (t.reverse.findIdx? (· = '/')).map (fun i => t.length - 1 - i) with
    | none => if abs then str "/" else str "."
    | some 0 => str "/"
    | some i => t.take i

/-- Node `path.posix.resolve` with one argument (`cwd` is the process
working directory, consulted when the argument is relative). -/
def resolve1 (cwd p : Str) : Str :=
  if isAbsP p then normalizeP p else normalizeP (cwd ++ '/' :: p)

/-- Node `path.posix.resolve(dir, p)`. -/
def resolveP (cwd dir p : Str) : Str :=
  if isAbsP p then normalizeP p
  else if isAbsP dir then normalizeP (dir ++ '/' :: p)
  else normalizeP (cwd ++ '/' :: dir ++ '/' :: p)

/-- Count the length of the common prefix of two segment lists. -/
def commonLen : List Str → List Str → Nat
  | a :: as, b :: bs => if a = b then commonLen as bs + 1 else 0
  | _, _ => 0

/-- Node `path.posix.relative`. -/
def relativeP (cwd f t : Str) : Str :=
  let fr := resolve1 cwd f
  let tr := resolve1 cwd t
  if fr = tr then []
  else
    let fs := (splitCh '/' fr).filter (· ≠ [])
    let ts := (splitCh '/' tr).filter (· ≠ [])
    let n := commonLen fs ts
    joinCh '/' (List.replicate (fs.length - n) (str "..") ++ ts.drop n)

/-!
Embedding of `src/import-rewriter.ts` (`rewriteImports`).

The external `es-module-lexer` is a context parameter `lex`; it reports each
static import's specifier span `[s, e)` into the script (quotes excluded, as
the lexer does for ordinary static imports).  A thrown parse error is
`.error`.  `resolveFn` is `ModuleResolver.resolve` as observed by the
rewriter; a rejection is `.error` (caught at the call site, line 248 of the
source).  `fileExists` is `fs.access` succeeding, and `cwd` is the process
working directory consulted by `path.resolve`.
-/

/-- One lexer entry: specifier start and end offsets. -/
structure Imp where
  s : Nat
  e : Nat
deriving DecidableEq

structure RewriteCtx where
  fileExists : Str → Bool
  cwd : Str
  resolveFn : Str → Str → Except Unit Str
  lex : Str → Except Unit (List Imp)

/-- CDN fallback URL (`https://cdn.jsdelivr.net/npm/<specifier>/+esm`). -/
def cdnUrl (spec : Str) : Str :=
  str "https://cdn.jsdelivr.net/npm/" ++ spec ++ str "/+esm"

/-- `quoteChar ? quoteChar + x + quoteChar : "${x}"` (import-rewriter.ts:184). -/
def mkQuoted : Option Char → Str → Str
  | some q, x => q :: x ++ [q]
  | none, x => dq :: x ++ [dq]

/-- Replace `rewritten.slice(start+offset … end+offset)` by `fin`, tracking
the running offset (import-rewriter.ts:181-186 and friends). -/
def splice (rw : Str) (off start stop : Int) (fin : Str) : Str × Int :=
  (jsSlice rw 0 (start + off) ++ fin ++ jsSliceFrom rw (stop + off),
   off + fin.length - (stop - start))

/-- Emulates `new RegExp("(['\"])" + escaped + "\\1").exec(code)`
(import-rewriter.ts:78-88): the first position holding a quote, the literal
specifier, and the same quote again. -/
def findQuoted (spec : Str) : Str → Option (Nat × Char)
  | [] => none
  | c :: cs =>
    if (c = dq ∨ c = sq) ∧ (spec ++ [c]).isPrefixOf cs then some (0, c)
    else (findQuoted spec cs).map (fun p => (p.1 + 1, p.2))

/-- Quote discovery for one import (import-rewriter.ts:51-97).  Returns the
actual specifier, the quote character, and the adjusted replacement span;
`none` means the `continue` at line 94 (no quotes found). -/
def extractSpec (code : Str) (imp : Imp) : Option (Str × Option Char × Int × Int) :=
  let start : Int := imp.s
  let stop : Int := imp.e
  let specifier := jsSlice code start stop
  let hasQuotes : Bool :=
    match specifier.head?, specifier.getLast? with
    | some fc, some lcr => (fc = dq ∨ fc = sq) ∧ fc = lcr
    | _, _ => false
  if hasQuotes then some (jsSlice specifier 1 (-1), specifier.head?, start, stop)
  else
    let codeBefore := jsSlice code (max 0 (start - 1)) start
    let codeAfter := jsSlice code stop (min (code.length : Int) (stop + 1))
    if (codeBefore = [dq] ∨ codeBefore = [sq]) ∧ codeBefore = codeAfter then
      some (specifier, codeBefore.head?, start - 1, stop + 1)
    else
      match findQuoted specifier code with
      | some (i, q) => some (specifier, some q, (i : Int), (i : Int) + specifier.length + 2)
      | none => none

/-- Extension chosen by the relative-extension repair
(import-rewriter.ts:107-169). -/
def repairExt (ctx : RewriteCtx) (importer actual : Str) : Str :=
  if subS (str "/swiss-packages/") (normSlashes importer) then str ".ts"
  else if subS (str "/lib/") (normSlashes importer) then str ".ts"
  else if endsW (normSlashes importer) (str ".uix") ∨ endsW (normSlashes importer) (str ".ui") then
    -- probe the .ui / .uix candidates next to the importer
    if ctx.fileExists (resolveP ctx.cwd (dirnameP importer)
        ((if startsW (jsSlice actual 0 (-3)) (str "./")
          then jsSliceFrom (jsSlice actual 0 (-3)) 2
          else jsSlice actual 0 (-3)) ++ str ".ui")) then str ".ui"
    else if ctx.fileExists (resolveP ctx.cwd (dirnameP importer)
        ((if startsW (jsSlice actual 0 (-3)) (str "./")
          then jsSliceFrom (jsSlice actual 0 (-3)) 2
          else jsSlice actual 0 (-3)) ++ str ".uix")) then str ".uix"
    else str ".ui"
  else str ".ts"

/-- The resolver call with its CDN fallbacks (import-rewriter.ts:230-263). -/
def resolveWithFallback (ctx : RewriteCtx) (importer actual : Str) : Str :=
  let resolved0 : Str :=
    match ctx.resolveFn actual importer with
    | .ok r =>
      if r = [] ∨ r = actual ∨ (¬ startsW r (str "/") ∧ ¬ startsW r (str "http")) then
        cdnUrl actual
      else r
    | .error _ => cdnUrl actual
  if subS (str "/dist/") resolved0 ∧
      (subS (str "/swiss-packages/") resolved0 ∨ subS (str "/packages/") resolved0) then
    replSuffix (str ".js") (str ".ts") (replF (str "/dist/") (str "/src/") resolved0)
  else resolved0

/-- The resolve-and-replace branch with the forced-replacement check
(import-rewriter.ts:265-310). -/
def stepResolveBranch (ctx : RewriteCtx) (importer : Str) (rw : Str) (off : Int)
    (actual : Str) (q? : Option Char) (start stop : Int) : Str × Int :=
  let resolved := resolveWithFallback ctx importer actual
  let st2 := splice rw off start stop (mkQuoted q? resolved)
  if subS actual st2.1 ∧ ¬ subS resolved st2.1 then (replA actual resolved st2.1, st2.2)
  else st2

/-- Loop body for one import once the specifier and quotes are known
(import-rewriter.ts:99-310). -/
def stepCore (ctx : RewriteCtx) (importer : Str) (rw : Str) (off : Int)
    (actual : Str) (q? : Option Char) (start stop : Int) : Str × Int :=
  if startsW actual (str ".") ∧ endsW actual (str ".js") ∧ ¬ subS (str "node_modules") actual then
    -- relative-extension repair (lines 102-192)
    splice rw off start stop
      (mkQuoted q? (jsSlice actual 0 (-3) ++ repairExt ctx importer actual))
  else if subS (str "/swiss-lib/") actual then
    -- /swiss-lib/ specifier conversion (lines 197-210)
    splice rw off start stop
      (mkQuoted q? (replA (str "/swiss-lib/packages/") (str "/swiss-packages/") actual))
  else if startsW actual (str ".") ∨ startsW actual (str "/") then (rw, off)
  else if (match actual.head? with
      | some c => (c = '@' ∨ c.isAlpha : Bool)
      | none => false) = false then
    (rw, off)
  else
    stepResolveBranch ctx importer rw off actual q? start stop

/-- One iteration of the import loop (import-rewriter.ts:40-311). -/
def stepImp (ctx : RewriteCtx) (code importer : Str) (st : Str × Int) (imp : Imp) : Str × Int :=
  let specifier := jsSlice code imp.s imp.e
  if subS (str ".css") specifier then st
  else
    match extractSpec code imp with
    | none => st
    | some (actual, q?, start, stop) => stepCore ctx importer st.1 st.2 actual q? start stop

/-- JS `\s` (the members these ASCII sources can contain). -/
def isWsChar (c : Char) : Bool :=
  c = ' ' ∨ c = Char.ofNat 9 ∨ c = Char.ofNat 10 ∨ c = Char.ofNat 11 ∨
  c = Char.ofNat 12 ∨ c = Char.ofNat 13 ∨ c.toNat = 0xa0 ∨
  c.toNat = 0x2028 ∨ c.toNat = 0x2029 ∨ c.toNat = 0xfeff

def isQuoteCh (c : Char) : Bool := c = dq ∨ c = sq

/-- JS `.` in a regex: anything but a line terminator. -/
def notLT (c : Char) : Bool :=
  ¬ (c.toNat = 10 ∨ c.toNat = 13 ∨ c.toNat = 0x2028 ∨ c.toNat = 0x2029)

/-- Lazy `[^"']*?` body of `(\.\.?\/[^"']*?)(\.js)(\1)`: the shortest
quote-free run followed by `.js` and the opening quote again. -/
def lazyBody (q : Char) : Str → Option Str
  | [] => none
  | c :: cs =>
    if (str ".js" ++ [q]).isPrefixOf (c :: cs) then some []
    else if c = dq ∨ c = sq then none
    else (lazyBody q cs).map (c :: ·)

/-- Replacement extension of the regex backstop (import-rewriter.ts:361-392). -/
def relJsExt (importer : Str) : Str :=
  let normImp := normSlashes importer
  let isSwiss := subS (str "/swiss-packages/") normImp
  let isLib := subS (str "/lib/") normImp
  let isUix := endsW normImp (str ".uix") ∨ endsW normImp (str ".ui")
  if isSwiss then str ".ts"
  else if isLib then str ".ts"
  else if isUix then (if endsW normImp (str ".ui") then str ".ui" else str ".uix")
  else str ".ts"

/-- Matcher for `/from\s+(["'])(\.\.?\/[^"']*?)(\.js)(\1)/g` together with its
replacement callback (import-rewriter.ts:347-400), after the whitespace run
`ws`, the quote `q` and the remaining text `t3` have been isolated. -/
def tryRelJsCore (importer ws : Str) (q : Char) (t3 : Str) : Option (Str × Str) :=
  if q = dq ∨ q = sq then
    match (if startsW t3 (str "../") then some (str "../")
           else if startsW t3 (str "./") then some (str "./")
           else none : Option Str) with
    | none => none
    | some dots =>
      match lazyBody q (t3.drop dots.length) with
      | none => none
      | some body =>
        if subS (str "node_modules") (dots ++ body) ∨
            ¬ startsW (dots ++ body) (str ".") then
          some (str "from" ++ ws ++ [q] ++ (dots ++ body) ++ str ".js" ++ [q],
                str "from" ++ ws ++ [q] ++ (dots ++ body) ++ str ".js" ++ [q])
        else
          some (str "from" ++ ws ++ [q] ++ (dots ++ body) ++ str ".js" ++ [q],
                str "from " ++ [q] ++ (dots ++ body) ++ relJsExt importer ++ [q])
  else none

def tryRelJs (importer t : Str) : Option (Str × Str) :=
  if startsW t (str "from") then
    if (t.drop 4).takeWhile isWsChar = [] then none
    else
      match (t.drop 4).drop ((t.drop 4).takeWhile isWsChar).length with
      | [] => none
      | q :: t3 => tryRelJsCore importer ((t.drop 4).takeWhile isWsChar) q t3
  else none

/-- After an opening quote and `@`: does `[^'"]+\/[^'"]+[^'"]*['"]` follow? -/
def bareAfterAt (t : Str) : Bool :=
  match t.findIdx? isQuoteCh with
  | none => false
  | some p => ((t.drop 1).take (p - 2)).contains '/'

/-- Scan `.*['"]@…` after one of the keywords. -/
def bareFrom : Str → Bool
  | [] => false
  | c :: cs =>
    (isQuoteCh c && (match cs with
      | a :: rest => a = '@' && bareAfterAt rest
      | [] => false))
    || (notLT c && bareFrom cs)

/-- `bareImportPattern.test(rewritten)` for
`/(?:import|from|export).*['"](@[^'"]+\/[^'"]+)[^'"]*['"]/`
(import-rewriter.ts:314-316). -/
def bareTest : Str → Bool
  | [] => false
  | c :: cs =>
    (startsW (c :: cs) (str "import") && bareFrom ((c :: cs).drop 6))
    || (startsW (c :: cs) (str "from") && bareFrom ((c :: cs).drop 4))
    || (startsW (c :: cs) (str "export") && bareFrom ((c :: cs).drop 6))
    || bareTest cs

/-- Matcher for `/(['"])\/swiss-lib\//g` with replacement
`'$1/swiss-packages/'` (import-rewriter.ts:428). -/
def tryQuoteSwiss (t : Str) : Option (Str × Str) :=
  match t with
  | q :: rest =>
    if (q = dq ∨ q = sq) ∧ startsW rest (str "/swiss-lib/") then
      some (q :: str "/swiss-lib/", q :: str "/swiss-packages/")
    else none
  | [] => none

/-- `rewriteImports(code, importer, resolver)` (import-rewriter.ts:17-450).
When `parse` throws, the outer catch returns the input (line 448).  When the
bare-import pattern tests positive, `rewritten.matchAll(bareImportPattern)`
throws a `TypeError` (the regex has no `g` flag, import-rewriter.ts:314-317),
so the outer catch again returns the input. -/
def rewriteImports (ctx : RewriteCtx) (code importer : Str) : Str :=
  match ctx.lex code with
  | .error _ => code
  | .ok imports =>
    if imports.length = 0 then code
    else
      let rw := (imports.foldl (stepImp ctx code importer) (code, 0)).1
      if bareTest rw then code
      else
        let rw2 := scanRepl (tryRelJs importer) rw
        if subS (str "/swiss-lib/") rw2 then
          scanRepl tryQuoteSwiss
            (replA (str "/swiss-lib/") (str "/swiss-packages/")
              (replA (str "/swiss-lib/packages/") (str "/swiss-packages/") rw2))
        else rw2

/-!
Embedding of `src/resolver/url-resolver.ts` (`normalizeResult`, `toUrl`).

The context mirrors `UrlResolverContext` plus the effectful collaborators
the function reaches through imports: `fs.realpath` (`none` = throws),
`findSwissLibMonorepo` from `utils/package-finder.ts` (its result for
`context.root`), `getWorkspaceRoot` (which can propagate a `JSON.parse`
throw, hence `Except`), and `resolveFilePath` from
`utils/file-path-resolver.ts`, whose result `toUrl` only feeds to
`fileExists` probes.
-/

structure UrlCtx where
  root : Str
  cwd : Str
  fileExists : Str → Bool
  realpath : Str → Option Str
  swissLib : Option Str
  wsRoot : Except Unit (Option Str)
  resolveFilePathFn : Str → Str → Option Str → Str

/-- `normalizeResult` (url-resolver.ts:21-34). -/
def normalizeResult (result : Str) : Str :=
  let r :=
    if subS (str "/swiss-lib/") result then
      replA (str "/swiss-lib/") (str "/swiss-packages/")
        (replA (str "/swiss-lib/packages/") (str "/swiss-packages/") result)
    else result
  normSlashes r

/-- First-occurrence replacement of `[/\\]dist[/\\]` by `path.sep + "src" +
path.sep` (url-resolver.ts:185, posix separator). -/
def replDistSrc : Str → Str
  | [] => []
  | c :: cs =>
    if (c = '/' ∨ c = '\\') ∧ (startsW cs (str "dist/") ∨ startsW cs (str "dist\\")) then
      str "/src/" ++ cs.drop 5
    else c :: replDistSrc cs

/-- `toUrl` continuation for absolute paths that are not under the swiss
monorepo packages directory (url-resolver.ts:130-215). -/
def toUrlAbsRest (ctx : UrlCtx) (filePath : Str) (workspaceRoot : Option Str) :
    Except Unit Str := do
  let origFilePathNormalized := normSlashes (resolve1 ctx.cwd filePath)
  if subS (str "/node_modules/") (lowerS origFilePathNormalized) then
    -- includes → indexOf is defined (url-resolver.ts:132-137)
    let nodeModulesIndex := (idxSub (str "/node_modules/") (lowerS origFilePathNormalized)).getD 0
    let afterNodeModules := origFilePathNormalized.drop (nodeModulesIndex + 14)
    return normalizeResult (str "/node_modules/" ++ afterNodeModules)
  else
    let normalizedRoot := lowerS (normSlashes (resolve1 ctx.cwd ctx.root))
    let normalizedFilePath := lowerS (normSlashes (resolve1 ctx.cwd filePath))
    if startsW normalizedFilePath normalizedRoot then
      let origRoot := normSlashes (resolve1 ctx.cwd ctx.root)
      let origFilePath := normSlashes (resolve1 ctx.cwd filePath)
      let relative := origFilePath.drop origRoot.length
      return normalizeResult (if startsW relative (str "/") then relative else '/' :: relative)
    else
      match workspaceRoot with
      | some wr =>
        let normalizedWorkspaceRoot := lowerS (normSlashes (resolve1 ctx.cwd wr))
        if startsW normalizedFilePath normalizedWorkspaceRoot then
          let origWorkspaceRoot := normSlashes (resolve1 ctx.cwd wr)
          let origFilePath := normSlashes (resolve1 ctx.cwd filePath)
          let normalizedOrigFilePath := lowerS origFilePath
          if subS (str "/swiss-lib/packages/") normalizedOrigFilePath ∨
              subS (str "\\swiss-lib\\packages\\") normalizedOrigFilePath then
            let index :=
              match idxSub (str "/swiss-lib/packages/") normalizedOrigFilePath with
              | some i => i
              | none => (idxSub (str "\\swiss-lib\\packages\\") normalizedOrigFilePath).getD 0
            let afterSwissLib := origFilePath.drop (index + 20)
            return normalizeResult (str "/swiss-packages/" ++ normSlashes afterSwissLib)
          else
            let relative := origFilePath.drop origWorkspaceRoot.length
            let url0 := if startsW relative (str "/") then relative else '/' :: relative
            let url :=
              if subS (str "/packages/") url0 ∧ subS (str "/dist/") url0 ∧
                  ctx.fileExists filePath = false then
                let srcPath := replSuffixCI (str ".js") (str ".ts") (replDistSrc filePath)
                if ctx.fileExists srcPath then
                  '/' :: normSlashes (relativeP ctx.cwd wr srcPath)
                else url0
              else url0
            if subS (str "/swiss-lib/") (lowerS url) then
              return normalizeResult
                (replACI (str "/swiss-lib/") (str "/swiss-packages/")
                  (replACI (str "/swiss-lib/packages/") (str "/swiss-packages/") url))
            else return normalizeResult url
        else
          let fallbackWorkspaceRoot ← ctx.wsRoot
          let baseRoot := fallbackWorkspaceRoot.getD ctx.root
          return normalizeResult ('/' :: normSlashes (relativeP ctx.cwd baseRoot filePath))
      | none =>
        let fallbackWorkspaceRoot ← ctx.wsRoot
        let baseRoot := fallbackWorkspaceRoot.getD ctx.root
        return normalizeResult ('/' :: normSlashes (relativeP ctx.cwd baseRoot filePath))

/-- `toUrl` (url-resolver.ts:39-220). -/
def toUrlE (ctx : UrlCtx) (filePath : Str) : Except Unit Str := do
  let normalized := normSlashes filePath
  if startsW normalized (str "/") ∨ startsW normalized (str "http") then
    if subS (str "/swiss-lib/packages/") normalized then
      let workingPath := replA (str "/swiss-lib/packages/") (str "/swiss-packages/") normalized
      if subS (str "/dist/") workingPath ∧ ¬ subS (str "/src/") workingPath then
        let srcPath := replSuffix (str ".js") (str ".ts") (replF (str "/dist/") (str "/src/") workingPath)
        let workspaceRoot ← ctx.wsRoot
        let srcFilePath := ctx.resolveFilePathFn srcPath ctx.root workspaceRoot
        if ctx.fileExists srcFilePath then return normalizeResult srcPath
        else return normalizeResult workingPath
      else return normalizeResult workingPath
    else
      if subS (str "/dist/") normalized ∧ ¬ subS (str "/src/") normalized then
        let srcPath := replSuffix (str ".js") (str ".ts") (replF (str "/dist/") (str "/src/") normalized)
        let workspaceRoot ← ctx.wsRoot
        let srcFilePath := ctx.resolveFilePathFn srcPath ctx.root workspaceRoot
        if ctx.fileExists srcFilePath then return normalizeResult srcPath
        else return normalizeResult normalized
      else return normalizeResult normalized
  else if isAbsP filePath then
    let workspaceRoot ← ctx.wsRoot
    match ctx.swissLib with
    | some swissLib =>
      let swissPackagesPath := joinP swissLib (str "packages")
      let rp :=
        match ctx.realpath swissPackagesPath, ctx.realpath filePath with
        | some a, some b => (a, b)
        | _, _ => (resolve1 ctx.cwd swissPackagesPath, resolve1 ctx.cwd filePath)
      let normalizedSwissPackages := lowerS (normSlashes rp.1)
      let normalizedFilePath := lowerS (normSlashes rp.2)
      if startsW normalizedFilePath normalizedSwissPackages then
        let origSwissPackages := normSlashes rp.1
        let origFilePath := normSlashes rp.2
        let relative := origFilePath.drop origSwissPackages.length
        let url := str "/swiss-packages" ++ (if startsW relative (str "/") then relative else '/' :: relative)
        if subS (str "/dist/") url ∧ ¬ subS (str "/src/") url then
          let srcUrl := replSuffix (str ".js") (str ".ts") (replF (str "/dist/") (str "/src/") url)
          let srcRelative := replF (str "/swiss-packages/") [] srcUrl
          let srcFilePath := joinP swissPackagesPath srcRelative
          if ctx.fileExists srcFilePath then return normalizeResult srcUrl
          else return normalizeResult url
        else return normalizeResult url
      else toUrlAbsRest ctx filePath workspaceRoot
    | none => toUrlAbsRest ctx filePath workspaceRoot
  else
    return normalizeResult ('/' :: normSlashes (relativeP ctx.cwd ctx.root filePath))

/-!
Embedding of the `ModuleResolver` (`resolver.ts`): the import-map fast path,
the variable-reference heuristics, absolute pass-through, and relative
resolution with the extension probe order.  `bareResolve` is
`resolver/bare-import-resolver.ts`, a separate module consumed through its
interface; the claims under verification return before reaching it.
`parseWs` models `JSON.parse(await fs.readFile(packageJson))​.workspaces`
truthiness inside `getWorkspaceRoot` (resolver.ts:37-56); its `.error` is a
thrown parse error, which that function does not catch.
-/

structure ImportMapT where
  imports : List (Str × Str)

structure RCtx where
  root : Str
  cwd : Str
  fileExists : Str → Bool
  realpath : Str → Option Str
  swissLib : Option Str
  resolveFilePathFn : Str → Str → Option Str → Str
  parseWs : Str → Except Unit Bool
  importMap : Option ImportMapT
  bareResolve : Str → Except Unit Str

/-- The bounded walk of `findWorkspaceRoot` local to `ModuleResolver`
(resolver.ts:37-56, five levels). -/
def findWsRootR (ctx : RCtx) : Nat → Str → Except Unit (Option Str)
  | 0, _ => .ok none
  | n + 1, current => do
    let workspaceFile := joinP current (str "pnpm-workspace.yaml")
    let packageJson := joinP current (str "package.json")
    let hit ←
      if ctx.fileExists workspaceFile then pure true
      else if ctx.fileExists packageJson then ctx.parseWs packageJson
      else pure false
    if hit then return some current
    else
      let parent := dirnameP current
      if parent = current then return none
      else findWsRootR ctx n parent

def getWorkspaceRootR (ctx : RCtx) : Except Unit (Option Str) :=
  findWsRootR ctx 5 ctx.root

def urlCtxOf (ctx : RCtx) : UrlCtx :=
  { root := ctx.root, cwd := ctx.cwd, fileExists := ctx.fileExists,
    realpath := ctx.realpath, swissLib := ctx.swissLib,
    wsRoot := getWorkspaceRootR ctx, resolveFilePathFn := ctx.resolveFilePathFn }

def imLookup (m : ImportMapT) (k : Str) : Option Str :=
  (m.imports.find? (fun p => p.1 = k)).map (·.2)

/-- The package-identifier regex
`/^[@a-zA-Z][a-zA-Z0-9_/@-]*(\.(js|ts|ui|uix|mjs|cjs|jsx|tsx))?$/`
(resolver.ts:97). -/
def pkgChar (c : Char) : Bool :=
  c.isAlpha ∨ c.isDigit ∨ c = '_' ∨ c = '/' ∨ c = '@' ∨ c = '-'

def validPkgSpec (s : Str) : Bool :=
  match s with
  | [] => false
  | c :: rest =>
    (c = '@' ∨ c.isAlpha) &&
    (match rest.findIdx? (· = '.') with
     | none => rest.all pkgChar
     | some i =>
       (rest.take i).all pkgChar &&
       [str ".js", str ".ts", str ".ui", str ".uix",
        str ".mjs", str ".cjs", str ".jsx", str ".tsx"].contains (rest.drop i))

/-- URL-to-file-path conversion of the importer (resolver.ts:123-153). -/
def importerToPath (ctx : RCtx) (importer : Str) : Except Unit Str := do
  if startsW importer (str "/") then
    if startsW importer (str "/src/") ∨ startsW importer (str "/public/") ∨
        startsW importer (str "/assets/") then
      return joinP ctx.root importer
    else
      let workspaceRoot ← getWorkspaceRootR ctx
      match workspaceRoot with
      | some wr =>
        let workspacePath := joinP wr importer
        if ctx.fileExists workspacePath then return workspacePath
        else return joinP ctx.root importer
      | none => return joinP ctx.root importer
  else return importer

/-- Extension probe order for relative imports (resolver.ts:184). -/
def extListMR : List Str :=
  [str ".ui", str ".uix", str ".ts", str ".tsx", str ".js", str ".jsx", str ".mjs"]

/-- `/\.(ui|uix|ts|tsx|js|jsx|mjs)$/.test(specifier)` (resolver.ts:158). -/
def hasExtMR (s : Str) : Bool :=
  endsW s (str ".ui") || endsW s (str ".uix") || endsW s (str ".ts") ||
  endsW s (str ".tsx") || endsW s (str ".js") || endsW s (str ".jsx") ||
  endsW s (str ".mjs")

/-- `specifier.replace(/\.(js|ts|jsx|tsx|mjs)$/, "")` (resolver.ts:177). -/
def stripExtMR (s : Str) : Str :=
  if endsW s (str ".js") then s.take (s.length - 3)
  else if endsW s (str ".ts") then s.take (s.length - 3)
  else if endsW s (str ".jsx") then s.take (s.length - 4)
  else if endsW s (str ".tsx") then s.take (s.length - 4)
  else if endsW s (str ".mjs") then s.take (s.length - 4)
  else s

/-- Extension probing for a relative specifier (resolver.ts:175-208). -/
def resolveRelExt (ctx : RCtx) (specifier importerDir : Str) : Except Unit Str := do
  let specifierWithoutExt := stripExtMR specifier
  let resolved := resolveP ctx.cwd importerDir specifierWithoutExt
  match extListMR.find? (fun e => ctx.fileExists (resolved ++ e)) with
  | some e => toUrlE (urlCtxOf ctx) (resolved ++ e)
  | none =>
    match extListMR.find? (fun e => ctx.fileExists (joinP resolved (str "index" ++ e))) with
    | some e => toUrlE (urlCtxOf ctx) (joinP resolved (str "index" ++ e))
    | none => toUrlE (urlCtxOf ctx) resolved

/-- Relative-import branch of `resolve` (resolver.ts:123-208). -/
def resolveRel (ctx : RCtx) (specifier importer : Str) : Except Unit Str := do
  let importerPath ← importerToPath ctx importer
  let importerDir := dirnameP importerPath
  if hasExtMR specifier then
    let resolved := resolveP ctx.cwd importerDir specifier
    if ctx.fileExists resolved then toUrlE (urlCtxOf ctx) resolved
    else resolveRelExt ctx specifier importerDir
  else resolveRelExt ctx specifier importerDir

/-- `ModuleResolver.resolve(specifier, importer)` (resolver.ts:62-209). -/
def resolveMR (ctx : RCtx) (specifier importer : Str) : Except Unit Str := do
  let mapped? : Option Str :=
    match ctx.importMap with
    | some im =>
      if ¬ startsW specifier (str ".") ∧ ¬ startsW specifier (str "/") then
        match imLookup im specifier with
        | some m => if m ≠ [] then some m else none
        | none => none
      else none
    | none => none
  match mapped? with
  | some m => return m
  | none =>
    if ¬ startsW specifier (str ".") ∧ ¬ startsW specifier (str "/") then
      if subS (str ".") specifier ∧ ¬ startsW specifier (str "@") then
        return specifier
      else if validPkgSpec specifier = false then
        return specifier
      else
        ctx.bareResolve specifier
    else if startsW specifier (str "/") then
      return specifier
    else
      resolveRel ctx specifier importer

/-- Wire the embedded `ModuleResolver` into the rewriter the way
`rewriteImports(code, importer, resolver)` receives it. -/
def rewriteCtxOf (rctx : RCtx) (lex : Str → Except Unit (List Imp)) : RewriteCtx :=
  { fileExists := rctx.fileExists, cwd := rctx.cwd,
    resolveFn := resolveMR rctx, lex := lex }

/-!
Embedding of the `CompilationCache` (`compilation-cache.ts` in the sources).
A JS `Map` is an association list: `set` of a fresh key appends, `set` of a
present key updates in place (insertion order is preserved), `delete`
removes.  `fsStat` models `fs.stat` (`none` = throws, `some m` = `mtimeMs`),
`deps` models the caller-supplied `getDependencies`, and `now` the
`Date.now()` at `set` time.
-/

structure CacheEntry where
  compiled : Str
  rewritten : Str
  mtime : Nat
  dependencies : List Str
  timestamp : Nat
deriving DecidableEq

abbrev Cache := List (Str × CacheEntry)

def cacheLookup (m : Cache) (k : Str) : Option CacheEntry :=
  (m.find? (fun p => p.1 = k)).map (·.2)

def cacheDel (m : Cache) (k : Str) : Cache :=
  m.filter (fun p => p.1 ≠ k)

def cacheMapSet (m : Cache) (k : Str) (v : CacheEntry) : Cache :=
  if (cacheLookup m k).isSome then
    m.map (fun p => if p.1 = k then (k, v) else p)
  else m ++ [(k, v)]

/-- `CompilationCache.get` (lines 122-191): result and post-state. -/
def cacheGet (fsStat : Str → Option Nat) (deps : Str → List Str)
    (m : Cache) (k : Str) : Option Str × Cache :=
  match cacheLookup m k with
  | none => (none, m)
  | some e =>
    match fsStat k with
    | none => (none, cacheDel m k)
    | some mt =>
      if mt ≠ e.mtime then (none, cacheDel m k)
      else
        let currentDeps := deps e.compiled
        let depsChanged : Bool :=
          currentDeps.length ≠ e.dependencies.length ∨
          (currentDeps.zip e.dependencies).any (fun p => p.1 ≠ p.2)
        if depsChanged then (none, cacheDel m k)
        else if e.dependencies.all (fun d =>
            match fsStat d with
            | some dm => dm ≤ e.timestamp
            | none => false) then
          (some e.rewritten, m)
        else (none, cacheDel m k)

/-- `CompilationCache.set` (lines 196-232).  `maxSize` is 1000; the eviction
guard `if (firstKey)` skips a falsy (empty-string) key; a failing
`fs.stat` aborts the insertion. -/
def cacheSet (fsStat : Str → Option Nat) (deps : Str → List Str) (now : Nat)
    (k : Str) (compiled rewritten : Str) (m : Cache) : Cache :=
  let m1 :=
    if m.length ≥ 1000 then
      match m.head? with
      | some p => if p.1 ≠ [] then cacheDel m p.1 else m
      | none => m
    else m
  match fsStat k with
  | none => m1
  | some mt =>
    cacheMapSet m1 k ⟨compiled, rewritten, mt, deps compiled, now⟩

/-- One observable cache operation, carrying the ambient filesystem and
clock it runs against. -/
inductive CacheOp where
  | get (k : Str) (fsStat : Str → Option Nat) (deps : Str → List Str)
  | set (k : Str) (compiled rewritten : Str)
      (fsStat : Str → Option Nat) (deps : Str → List Str) (now : Nat)
  | clearOne (k : Str)
  | clearAll

def runOp (m : Cache) : CacheOp → Cache
  | .get k fsStat deps => (cacheGet fsStat deps m k).2
  | .set k compiled rewritten fsStat deps now => cacheSet fsStat deps now k compiled rewritten m
  | .clearOne k => cacheDel m k
  | .clearAll => []

def runOps (ops : List CacheOp) : Cache := ops.foldl runOp []

/-- `set` operations never use the empty string as a path (an empty path can
never be `stat`-ed anyway). -/
def CacheOp.goodKey : CacheOp → Prop
  | .set k _ _ _ _ _ => k ≠ []
  | _ => True

instance : DecidablePred CacheOp.goodKey := by
  intro op; cases op <;> simp [CacheOp.goodKey] <;> infer_instance

/-!
Embedding of `utils/workspace.ts` (`findWorkspaceRoot`): ten levels,
`pnpm-workspace.yaml` plus `lib/` or `packages/`, or a `package.json` with a
truthy `workspaces` field plus `lib/`.  `access` is `fs.access` succeeding;
`pkgWorkspaces p` is the truthiness of `JSON.parse(readFile(p)).workspaces`
(`none` = the read or parse threw, caught at lines 52-54).
-/

structure WsFs where
  access : Str → Bool
  pkgWorkspaces : Str → Option Bool

def findWorkspaceRootGo (fs : WsFs) : Nat → Str → Option Str
  | 0, _ => none
  | n + 1, current =>
    let next : Option Str :=
      let parent := dirnameP current
      if parent = current then none
      else findWorkspaceRootGo fs n parent
    let workspaceFile := joinP current (str "pnpm-workspace.yaml")
    let packageJson := joinP current (str "package.json")
    let libDir := joinP current (str "lib")
    if fs.access workspaceFile then
      if fs.access libDir then some current
      else if fs.access (joinP current (str "packages")) then some current
      else next
    else
      match fs.pkgWorkspaces packageJson with
      | some true => if fs.access libDir then some current else next
      | _ => next

/-- `findWorkspaceRoot(root)` (workspace.ts:14-62). -/
def findWorkspaceRoot (fs : WsFs) (root : Str) : Option Str :=
  findWorkspaceRootGo fs 10 root

/-- The chain of directories the walk visits: the start directory and up to
nine ancestors, stopping at the filesystem root. -/
def ancChain : Nat → Str → List Str
  | 0, _ => []
  | n + 1, current =>
    current ::
      (let parent := dirnameP current
       if parent = current then [] else ancChain n parent)

/-- The acceptance test the code actually applies at one directory. -/
def wsAccepts (fs : WsFs) (d : Str) : Bool :=
  (fs.access (joinP d (str "pnpm-workspace.yaml")) &&
    (fs.access (joinP d (str "lib")) || fs.access (joinP d (str "packages")))) ||
  ((fs.pkgWorkspaces (joinP d (str "package.json")) = some true) &&
    fs.access (joinP d (str "lib")))

/-- The acceptance test claimed by the specification: a workspace marker
together with one of `lib`, `packages`, `libraries`, `modules`.
Modelled from the spec wording, for comparison with `wsAccepts`. -/
def wsAcceptsClaim (fs : WsFs) (d : Str) : Bool :=
  (fs.access (joinP d (str "pnpm-workspace.yaml")) ||
    (fs.pkgWorkspaces (joinP d (str "package.json")) = some true)) &&
  (fs.access (joinP d (str "lib")) || fs.access (joinP d (str "packages")) ||
    fs.access (joinP d (str "libraries")) || fs.access (joinP d (str "modules")))

/-!
Embedding of the `PackageRegistry` scan (`utils/generate-import-map.ts`,
`scanDirectory` lines 225-306 and `findPackage` lines 311-313).  The
filesystem subtree is a rose tree of directories; `pkgName` is the `name`
field of the directory's `package.json` when that file exists, parses, and
has a name (`scanDirectory` reads it while visiting the parent).  Directory
entries appear in `readdir` order.
-/

inductive DirT where
  | node (name : Str) (pkgName : Option Str) (sub : List DirT)

def DirT.name : DirT → Str
  | .node n _ _ => n

def DirT.pkgName : DirT → Option Str
  | .node _ p _ => p

def DirT.sub : DirT → List DirT
  | .node _ _ s => s

/-- The skip list of `scanDirectory` (lines 249-255). -/
def skipDir (name : Str) : Bool :=
  name = str "node_modules" ∨ name = str "dist" ∨ name = str ".git" ∨
  name = str ".swite" ∨ startsW name (str ".")

abbrev Registry := List (Str × Str)

def regLookup (m : Registry) (k : Str) : Option Str :=
  (m.find? (fun p => p.1 = k)).map (·.2)

/-- Insert only if the name is not already present (lines 274-288). -/
def regInsert (m : Registry) (k v : Str) : Registry :=
  if (regLookup m k).isSome then m else m ++ [(k, v)]

mutual
/-- `scanDirectory(dir, depth)` threading the `packages` map. -/
def scanDir : Str → DirT → Nat → Registry → Registry
  | dirPath, .node _ _ sub, depth, m =>
    if depth > 15 then m else scanEntries dirPath sub depth m

def scanEntries : Str → List DirT → Nat → Registry → Registry
  | _, [], _, m => m
  | dirPath, c :: cs, depth, m =>
    if skipDir c.name then scanEntries dirPath cs depth m
    else
      let childPath := joinP dirPath c.name
      let m1 :=
        match c.pkgName with
        | some n => regInsert m n childPath
        | none => m
      scanEntries dirPath cs depth (scanDir childPath c (depth + 1) m1)
end

mutual
/-- The discovery sequence: every `(name, directory)` pair in traversal
order, duplicates included. -/
def found : Str → DirT → Nat → List (Str × Str)
  | dirPath, .node _ _ sub, depth =>
    if depth > 15 then [] else foundEntries dirPath sub depth

def foundEntries : Str → List DirT → Nat → List (Str × Str)
  | _, [], _ => []
  | dirPath, c :: cs, depth =>
    if skipDir c.name then foundEntries dirPath cs depth
    else
      let childPath := joinP dirPath c.name
      (match c.pkgName with
       | some n => [(n, childPath)]
       | none => []) ++ found childPath c (depth + 1) ++ foundEntries dirPath cs depth
end

/-- `scanWorkspace(workspaceRoot, additionalRoots)` over existing directory
roots (lines 179-220): scan roots in order, the workspace root first and
additional roots deduplicated against it. -/
def scanRootsOf (wsRoot : Str) (additional : List Str) : List Str :=
  wsRoot :: additional.filter (fun r => r ≠ [] ∧ r ≠ wsRoot)

def scanWorkspace (trees : Str → DirT) (wsRoot : Str) (additional : List Str) : Registry :=
  (scanRootsOf wsRoot additional).foldl (fun m r => scanDir r (trees r) 0 m) []

/-- `findPackage(name)` (lines 311-313), projected to the directory. -/
def findPackage (m : Registry) (n : Str) : Option Str := regLookup m n

/-!
Embedding of the HMR classification (`hmr.ts`): the extension extraction
`filePath.split(".").pop()?.toLowerCase()` (line 101) and
`getUpdateType(fileExt, filePath)` (lines 264-285).
-/

/-- `getUpdateType` — `none`/empty arguments are the falsy guard. -/
def getUpdateType (fileExt? : Option Str) (filePath? : Option Str) : Str :=
  match fileExt?, filePath? with
  | some fe, some fp =>
    if fe = [] ∨ fp = [] then str "reload"
    else if fe = str "css" ∨ fe = str "scss" ∨ fe = str "sass" then str "style"
    else if fe = str "js" ∨ fe = str "ts" ∨ fe = str "jsx" ∨ fe = str "tsx" then
      if subS (str "/components/") fp ∨ subS (str "/pages/") fp then str "hot"
      else str "reload"
    else str "reload"
  | _, _ => str "reload"

/-- `filePath.split(".").pop()?.toLowerCase()`. -/
def extOf (fp : Str) : Option Str :=
  ((splitCh '.' fp).getLast?).map lowerS

/-- The classification a stabilized change event receives (hmr.ts:97-109). -/
def classifyChange (fp : Str) : Str :=
  getUpdateType (extOf fp) (some fp)

/-!
Concrete instances used by witnesses and counterexamples.
-/

/-- The lexer output for a script whose only static import is the first
double-quoted string: `es-module-lexer` reports the span between the
quotes. -/
def lexOneDq (c : Str) : Except Unit (List Imp) :=
  match idxSub [dq] c with
  | some i =>
    match idxSub [dq] (c.drop (i + 1)) with
    | some j => .ok [⟨i + 1, i + 1 + j⟩]
    | none => .ok []
  | none => .ok []

/-- A lexer finding no static imports (scripts without import syntax). -/
def lexNone : Str → Except Unit (List Imp) := fun _ => .ok []

/-- A resolver context with an empty filesystem and no import map, as in the
repository's own tests (`new ModuleResolver("/fake/root")`). -/
def rctxFake : RCtx :=
  { root := str "/fake/root", cwd := str "/cwd", fileExists := fun _ => false,
    realpath := fun _ => none, swissLib := none,
    resolveFilePathFn := fun p _ _ => p, parseWs := fun _ => .error (),
    importMap := none, bareResolve := fun s => .ok (cdnUrl s) }

/-- Script whose only import specifier is an already-rewritten CDN URL. -/
def cdnScript : Str := str "import x from \"https://cdn.jsdelivr.net/npm/foo/+esm\";"

/-- Filesystem on which `/app/src/a.js` exists. -/
def fsAJs : Str → Bool := fun p => p = str "/app/src/a.js"

def ctxAJs : RewriteCtx :=
  { fileExists := fsAJs, cwd := str "/cwd",
    resolveFn := fun _ _ => .error (), lex := lexOneDq }

def relJsScript : Str := str "import a from \"./a.js\";"

/-- Rewriter context whose resolver throws on every specifier. -/
def ctxThrowingResolver : RewriteCtx :=
  { fileExists := fun _ => false, cwd := str "/cwd",
    resolveFn := fun _ _ => .error (), lex := lexOneDq }

def ctxNoImports : RewriteCtx :=
  { fileExists := fun _ => false, cwd := str "/cwd",
    resolveFn := fun _ _ => .error (), lex := lexNone }

/-- URL-resolver context over an empty filesystem. -/
def uctxEmpty : UrlCtx :=
  { root := str "/app", cwd := str "/cwd", fileExists := fun _ => false,
    realpath := fun _ => none, swissLib := none, wsRoot := .ok none,
    resolveFilePathFn := fun p _ _ => p }

/-- Resolver context for a directory holding both `x.ui` and `x.ts`. -/
def rctxUiTs : RCtx :=
  { root := str "/app", cwd := str "/cwd",
    fileExists := fun p => p = str "/app/src/x.ui" ∨ p = str "/app/src/x.ts",
    realpath := fun _ => none, swissLib := none,
    resolveFilePathFn := fun p _ _ => p, parseWs := fun _ => .error (),
    importMap := none, bareResolve := fun s => .ok (cdnUrl s) }

/-- Filesystem for the workspace-locator counterexample: the start directory
holds `pnpm-workspace.yaml` and a `libraries/` directory and nothing else
exists anywhere. -/
def fsLibraries : WsFs :=
  { access := fun p => p = str "/a/pnpm-workspace.yaml" ∨ p = str "/a/libraries",
    pkgWorkspaces := fun _ => none }

/-- A rewriter context whose lexer throws on every script. -/
def ctxLexThrows : RewriteCtx :=
  { fileExists := fun _ => false, cwd := str "/cwd",
    resolveFn := fun _ _ => .error (), lex := fun _ => .error () }

/-- One parsed import that the rewriting loop provably leaves untouched:
its raw slice mentions `.css`, or quote discovery fails, or the quoted
specifier is relative/absolute without triggering the `.js` repair or the
`/swiss-lib/` conversion. -/
def specUntouched (code : Str) (imp : Imp) : Bool :=
  subS (str ".css") (jsSlice code imp.s imp.e) ||
  match extractSpec code imp with
  | none => true
  | some (a, _, _, _) =>
    (startsW a (str ".") || startsW a (str "/")) &&
    !(startsW a (str ".") && endsW a (str ".js") && !subS (str "node_modules") a) &&
    !subS (str "/swiss-lib/") a

/-- No suffix of the text matches the relative-`.js` backstop regex. -/
def noRelJsMatch (importer code : Str) : Bool :=
  (List.range (code.length + 1)).all (fun n => (tryRelJs importer (code.drop n)).isNone)

/-- A dummy cache entry, for the capacity witness. -/
def entry0 : CacheEntry := ⟨[], [], 0, [], 0⟩

/-- A cache at full capacity: 1000 entries with distinct nonempty keys. -/
def fullCache : Cache :=
  (List.range 1000).map (fun i => (List.replicate (i + 1) 'a', entry0))

/-- `s` contains no occurrence of the token `p`, case-insensitively.  The
no-leak arguments below instantiate `p` with `swiss-lib`. -/
abbrev NoTok (p s : Str) : Prop := subS p (lowerS s) = false

/-- The internal framework token. -/
def slTok : Str := str "swiss-lib"

/-!
Lemmas: occurrence tests, the boundary-character argument for appends, and
the behavior of the scanning replacers.
-/

theorem subS_iff (p s : Str) : subS p s = true ↔ ∃ l r, s = l ++ p ++ r := by
  induction s with
  | nil =>
    simp only [subS, List.isEmpty_iff]
    constructor
    · rintro rfl; exact ⟨[], [], rfl⟩
    · rintro ⟨l, r, h⟩
      rcases List.append_eq_nil.mp h.symm with ⟨h1, h2⟩
      rcases List.append_eq_nil.mp h1 with ⟨-, h3⟩
      exact h3
  | cons c cs ih =>
    simp only [subS, Bool.or_eq_true, List.isPrefixOf_iff_prefix, ih]
    constructor
    · rintro (⟨t, ht⟩ | ⟨l, r, hr⟩)
      · exact ⟨[], t, by simpa using ht.symm⟩
      · exact ⟨c :: l, r, by simp [hr]⟩
    · rintro ⟨l, r, h⟩
      match l, h with
      | [], h => exact Or.inl ⟨r, by simpa using h.symm⟩
      | a :: l, h =>
        simp only [List.cons_append, List.cons.injEq] at h
        exact Or.inr ⟨l, r, h.2⟩

theorem subS_nil_left (s : Str) : subS [] s = true := by
  cases s <;> simp [subS, List.isPrefixOf]

theorem ne_nil_of_subS_false {p s : Str} (h : subS p s = false) : p ≠ [] := by
  intro hp; rw [hp, subS_nil_left] at h; exact Bool.true_eq_false.mp h

theorem subS_of_part {p x y : Str} (hxy : x <:+: y) (h : subS p x = true) :
    subS p y = true := by
  rw [subS_iff] at h ⊢
  obtain ⟨l, r, rfl⟩ := h
  obtain ⟨u, v, rfl⟩ := hxy
  exact ⟨u ++ l, r ++ v, by simp⟩

theorem subS_false_of_part {p x y : Str} (h : subS p y = false) (hxy : x <:+: y) :
    subS p x = false := by
  cases hx : subS p x with
  | false => rfl
  | true => rw [subS_of_part hxy hx] at h; exact h.symm ▸ rfl

/-- An occurrence of `p` in `a ++ b` lies in `a`, lies in `b`, or straddles
the boundary, in which case a nonempty prefix of `p` is a suffix of `a` and
the nonempty rest of `p` is a prefix of `b`. -/
theorem subS_append_cases {p a b : Str} (h : subS p (a ++ b) = true) :
    subS p a = true ∨ subS p b = true ∨
      ∃ i, 0 < i ∧ i < p.length ∧ p.take i <:+ a ∧ p.drop i <+: b := by
  rw [subS_iff] at h
  obtain ⟨l, r, hlr⟩ := h
  rcases le_or_lt (l.length + p.length) a.length with hle | hgt
  · left
    rw [subS_iff]
    have := congrArg (List.take a.length) hlr
    rw [List.take_left' rfl] at this
    rw [List.append_assoc, List.take_append_eq_append_take,
      List.take_append_eq_append_take, List.take_of_length_le (by omega),
      List.take_of_length_le (by omega)] at this
    exact ⟨l, _, by rw [this, List.append_assoc]⟩
  · rcases le_or_lt a.length l.length with hal | hla
    · right; left
      rw [subS_iff]
      have := congrArg (List.drop a.length) hlr
      rw [List.drop_left' rfl] at this
      rw [List.append_assoc, List.drop_append_eq_append_drop] at this
      have h0 : a.length - l.length = 0 := by omega
      rw [h0, List.drop_zero] at this
      exact ⟨l.drop a.length, r, by rw [this, List.append_assoc]⟩
    · right; right
      refine ⟨a.length - l.length, by omega, by omega, ?_, ?_⟩
      · have := congrArg (List.take a.length) hlr
        rw [List.take_left' rfl] at this
        rw [List.append_assoc, List.take_append_eq_append_take] at this
        rw [List.take_append_eq_append_take] at this
        rw [List.take_of_length_le (le_of_lt hla)] at this
        have h0 : a.length - l.length - p.length = 0 := by omega
        rw [h0, List.take_zero, List.append_nil] at this
        exact ⟨l, this.symm⟩
      · have := congrArg (List.drop a.length) hlr
        rw [List.drop_left' rfl] at this
        rw [List.append_assoc, List.drop_append_eq_append_drop,
          List.drop_of_length_le (le_of_lt hla), List.nil_append,
          List.drop_append_eq_append_drop] at this
        have h0 : a.length - l.length - p.length = 0 := by omega
        rw [h0, List.drop_zero] at this
        exact ⟨_, this.symm⟩

/-- Boundary argument, head form: if `b` starts with a character not in
`p`, no occurrence of `p` straddles the boundary of `a ++ b`. -/
theorem subS_append_free_head {p a b : Str}
    (hb : ∀ c, b.head? = some c → c ∉ p)
    (ha : subS p a = false) (hb2 : subS p b = false) :
    subS p (a ++ b) = false := by
  cases hab : subS p (a ++ b) with
  | false => rfl
  | true =>
    exfalso
    rcases subS_append_cases hab with h | h | ⟨i, hi0, hip, -, hdrop⟩
    · rw [h] at ha; cases ha
    · rw [h] at hb2; cases hb2
    · have hne : p.drop i ≠ [] := by
        intro hnil
        have := congrArg List.length hnil
        simp at this; omega
      obtain ⟨c, cs, hcons⟩ := List.exists_cons_of_ne_nil hne
      obtain ⟨t, ht⟩ := hdrop
      have hhead : b.head? = some c := by
        rw [← ht, hcons]; rfl
      exact hb c hhead (List.mem_of_mem_drop (hcons ▸ List.mem_cons_self c cs))

/-- Boundary argument, last form: if `a` ends with a character not in `p`,
no occurrence of `p` straddles the boundary of `a ++ b`. -/
theorem subS_append_free_last {p a b : Str}
    (hA : ∀ c, a.getLast? = some c → c ∉ p)
    (ha : subS p a = false) (hb2 : subS p b = false) :
    subS p (a ++ b) = false := by
  cases hab : subS p (a ++ b) with
  | false => rfl
  | true =>
    exfalso
    rcases subS_append_cases hab with h | h | ⟨i, hi0, hip, htake, -⟩
    · rw [h] at ha; cases ha
    · rw [h] at hb2; cases hb2
    · have hne : p.take i ≠ [] := by
        intro hnil
        rcases List.take_eq_nil_iff.mp hnil with h0 | h0
        · omega
        · rw [h0] at hip; simp at hip
      obtain ⟨t, ht⟩ := htake
      obtain ⟨c, hc⟩ : ∃ c, (p.take i).getLast? = some c := by
        cases hg : (p.take i).getLast? with
        | some c => exact ⟨c, rfl⟩
        | none => exact absurd (List.getLast?_eq_none_iff.mp hg) hne
      have hlast : a.getLast? = some c := by
        rw [← ht, List.getLast?_append, hc]; rfl
      exact hA c hlast (List.take_subset i p (List.mem_of_mem_getLast? hc))

/-- An occurrence of a longer pattern carries an occurrence of any infix. -/
theorem subS_of_pattern_part {p q s : Str} (hpq : p <:+: q)
    (h : subS q s = true) : subS p s = true := by
  rw [subS_iff] at h ⊢
  obtain ⟨l, r, rfl⟩ := h
  obtain ⟨u, v, rfl⟩ := hpq
  exact ⟨l ++ u, v ++ r, by simp⟩

theorem lowerS_append (a b : Str) : lowerS (a ++ b) = lowerS a ++ lowerS b :=
  List.map_append lc a b

theorem noTok_of_part {p x y : Str} (h : NoTok p y) (hxy : x <:+: y) :
    NoTok p x :=
  subS_false_of_part h (hxy.map lc)

theorem noTok_append {p a b : Str}
    (hg : (∃ c, b.head? = some c ∧ lc c ∉ p) ∨ (∃ c, a.getLast? = some c ∧ lc c ∉ p))
    (ha : NoTok p a) (hb : NoTok p b) : NoTok p (a ++ b) := by
  unfold NoTok at *
  rw [lowerS_append]
  rcases hg with ⟨c, hc, hcp⟩ | ⟨c, hc, hcp⟩
  · refine subS_append_free_head ?_ ha hb
    intro d hd
    rw [show (lowerS b).head? = b.head?.map lc from (List.head?_map lc b).symm ▸ rfl, hc] at hd
    cases hd; exact hcp
  · refine subS_append_free_last ?_ ha hb
    intro d hd
    rw [show (lowerS a).getLast? = a.getLast?.map lc from (List.getLast?_map lc a).symm ▸ rfl, hc] at hd
    cases hd; exact hcp

theorem jsSlice_part (s : Str) (a b : Int) : jsSlice s a b <:+: s :=
  ((List.drop_suffix _ _).isInfix).trans ((List.take_prefix _ _).isInfix)

theorem jsSliceFrom_suffix (s : Str) (a : Int) : jsSliceFrom s a <:+ s :=
  List.drop_suffix _ _

theorem noTok_jsSlice {p : Str} (s : Str) (a b : Int) (h : NoTok p s) :
    NoTok p (jsSlice s a b) :=
  noTok_of_part h (jsSlice_part s a b)

theorem noTok_jsSliceFrom {p : Str} (s : Str) (a : Int) (h : NoTok p s) :
    NoTok p (jsSliceFrom s a) :=
  noTok_of_part h (jsSliceFrom_suffix s a).isInfix

theorem noTok_take {p : Str} (s : Str) (n : Nat) (h : NoTok p s) :
    NoTok p (s.take n) :=
  noTok_of_part h (List.take_prefix n s).isInfix

theorem noTok_drop {p : Str} (s : Str) (n : Nat) (h : NoTok p s) :
    NoTok p (s.drop n) :=
  noTok_of_part h (List.drop_suffix n s).isInfix

/-!
Behavior of `scanRepl`: fuel irrelevance, a one-step decomposition, and
preservation of token-freeness when every replacement is token-free and
guarded by boundary characters outside the token.
-/

theorem scanReplF_nil (f : Str → Option (Str × Str)) (fu : Nat) :
    scanReplF f fu [] = [] := by
  cases fu <;> rfl

theorem scanReplF_fuel (f : Str → Option (Str × Str)) :
    ∀ fu1 fu2 (s : Str), s.length ≤ fu1 → s.length ≤ fu2 →
      scanReplF f fu1 s = scanReplF f fu2 s := by
  intro fu1
  induction fu1 with
  | zero =>
    intro fu2 s h1 _
    have : s = [] := List.eq_nil_of_length_eq_zero (Nat.le_zero.mp h1)
    subst this
    rw [scanReplF_nil, scanReplF_nil]
  | succ fu ih =>
    intro fu2 s h1 h2
    cases s with
    | nil => rw [scanReplF_nil, scanReplF_nil]
    | cons c cs =>
      cases fu2 with
      | zero => simp at h2
      | succ fu2 =>
        simp only [scanReplF]
        cases hf : f (c :: cs) with
        | none =>
          simp only []
          rw [ih fu2 cs (by simpa using h1) (by simpa using h2)]
        | some pr =>
          obtain ⟨m, rep⟩ := pr
          simp only []
          by_cases hm : m.length = 0
          · simp only [hm, reduceIte]
            rw [ih fu2 cs (by simpa using h1) (by simpa using h2)]
          · simp only [if_neg hm]
            have hlen : (List.drop (m.length - 1) cs).length ≤ cs.length := by
              simp [List.length_drop]
            rw [ih fu2 _ (le_trans hlen (by simpa using h1))
                (le_trans hlen (by simpa using h2))]

theorem scanRepl_cases (f : Str → Option (Str × Str)) (s : Str) :
    scanRepl f s = s ∨
    ∃ pre rest m rep, s = pre ++ rest ∧ rest ≠ [] ∧ f rest = some (m, rep) ∧
      m.length ≠ 0 ∧ (rest.drop m.length).length < s.length ∧
      scanRepl f s = pre ++ (rep ++ scanRepl f (rest.drop m.length)) := by
  induction s with
  | nil => left; rfl
  | cons c cs ih =>
    have hstep : scanRepl f (c :: cs) =
        (match f (c :: cs) with
         | some (m, rep) =>
           if m.length = 0 then c :: scanRepl f cs
           else rep ++ scanReplF f cs.length (List.drop (m.length - 1) cs)
         | none => c :: scanRepl f cs) := by
      show scanReplF f (cs.length + 1) (c :: cs) = _
      simp only [scanReplF]
      rfl
    cases hf : f (c :: cs) with
    | none =>
      rw [hstep, hf]
      rcases ih with h | ⟨pre, rest, m, rep, hs, hne, hfr, hm, hlt, heq⟩
      · left; rw [h]
      · right
        exact ⟨c :: pre, rest, m, rep, by rw [hs]; rfl, hne, hfr, hm,
          by simpa using Nat.lt_succ_of_lt hlt, by rw [heq]; rfl⟩
    | some pr =>
      obtain ⟨m, rep⟩ := pr
      by_cases hm : m.length = 0
      · rw [hstep, hf]
        simp only [hm, reduceIte]
        rcases ih with h | ⟨pre, rest, m2, rep2, hs, hne, hfr, hm2, hlt, heq⟩
        · left; rw [h]
        · right
          exact ⟨c :: pre, rest, m2, rep2, by rw [hs]; rfl, hne, hfr, hm2,
            by simpa using Nat.lt_succ_of_lt hlt, by rw [heq]; rfl⟩
      · right
        refine ⟨[], c :: cs, m, rep, rfl, by simp, hf, hm, ?_, ?_⟩
        · simp only [List.length_drop, List.length_cons]
          omega
        · rw [hstep, hf]
          simp only [if_neg hm, List.nil_append]
          obtain ⟨k, hk⟩ : ∃ k, m.length = k + 1 :=
            ⟨m.length - 1, by omega⟩
          rw [hk]
          simp only [List.drop_succ_cons, Nat.add_sub_cancel]
          congr 1
          exact scanReplF_fuel f cs.length _ _ (by simp [List.length_drop]) le_rfl

theorem head?_append_of_ne_nil {a b : Str} (ha : a ≠ []) :
    (a ++ b).head? = a.head? := by
  cases a with
  | nil => exact absurd rfl ha
  | cons x xs => rfl

/-- Token-freeness is preserved by `scanRepl` when every replacement the
matcher can produce (on token-free input) is itself token-free, nonempty,
and bounded by characters outside the token. -/
theorem scanRepl_noTok {p : Str} (f : Str → Option (Str × Str))
    (hf : ∀ t m rep, NoTok p t → f t = some (m, rep) →
      NoTok p rep ∧ rep ≠ [] ∧
      (∀ c, rep.head? = some c → lc c ∉ p) ∧
      (∀ c, rep.getLast? = some c → lc c ∉ p)) :
    ∀ s, NoTok p s → NoTok p (scanRepl f s) := by
  have main : ∀ n s, s.length ≤ n → NoTok p s → NoTok p (scanRepl f s) := by
    intro n
    induction n with
    | zero =>
      intro s hlen hs
      have : s = [] := List.eq_nil_of_length_eq_zero (Nat.le_zero.mp hlen)
      subst this
      exact hs
    | succ n ih =>
      intro s hlen hs
      rcases scanRepl_cases f s with h | ⟨pre, rest, m, rep, hsplit, hne, hfr, hm, hlt, heq⟩
      · rw [h]; exact hs
      · have hrest : NoTok p rest := noTok_of_part hs ⟨pre, [], by simp [hsplit]⟩
        have hpre : NoTok p pre := noTok_of_part hs ⟨[], rest, by simp [hsplit]⟩
        obtain ⟨hrepfree, hrepne, hrephead, hreplast⟩ := hf rest m rep hrest hfr
        have hdropfree : NoTok p (rest.drop m.length) := noTok_drop rest m.length hrest
        have hZ : NoTok p (scanRepl f (rest.drop m.length)) := by
          refine ih _ ?_ hdropfree
          have : s.length ≤ n + 1 := hlen
          omega
        rw [heq]
        have hrz : NoTok p (rep ++ scanRepl f (rest.drop m.length)) := by
          refine noTok_append (Or.inr ?_) hrepfree hZ
          obtain ⟨c, hc⟩ : ∃ c, rep.getLast? = some c := by
            cases hg : rep.getLast? with
            | some c => exact ⟨c, rfl⟩
            | none => exact absurd (List.getLast?_eq_none_iff.mp hg) hrepne
          exact ⟨c, hc, hreplast c hc⟩
        refine noTok_append (Or.inl ?_) hpre hrz
        obtain ⟨c, hc⟩ : ∃ c, rep.head? = some c := by
          cases hg : rep.head? with
          | some c => exact ⟨c, rfl⟩
          | none => exact absurd (List.head?_eq_none_iff.mp hg) hrepne
        exact ⟨c, by rw [head?_append_of_ne_nil hrepne]; exact hc, hrephead c hc⟩
  intro s
  exact main s.length s le_rfl

/-!
Token-freeness through the concrete replacement helpers.
-/

theorem replF_cases (pat rep : Str) (s : Str) :
    replF pat rep s = s ∨
    ∃ pre suf, s = pre ++ pat ++ suf ∧ replF pat rep s = pre ++ (rep ++ suf) := by
  induction s with
  | nil => left; rfl
  | cons c cs ih =>
    by_cases h : pat ≠ [] ∧ pat.isPrefixOf (c :: cs)
    · right
      obtain ⟨t, ht⟩ := List.isPrefixOf_iff_prefix.mp h.2
      refine ⟨[], t, by simp [ht], ?_⟩
      obtain ⟨k, hk⟩ : ∃ k, pat.length = k + 1 := by
        cases hp : pat with
        | nil => exact absurd hp h.1
        | cons a as => exact ⟨as.length, by simp [hp]⟩
      have hdrop : List.drop (pat.length - 1) cs = t := by
        have h2 : t = List.drop pat.length (c :: cs) := by
          have := congrArg (List.drop pat.length) ht
          rw [List.drop_left] at this
          exact this
        rw [h2, hk]
        simp [List.drop_succ_cons]
      have hstep : replF pat rep (c :: cs) = rep ++ List.drop (pat.length - 1) cs := by
        simp only [replF]
        rw [if_pos h]
      rw [hstep, hdrop]
      simp
    · have hne : replF pat rep (c :: cs) = c :: replF pat rep cs := by
        simp only [replF]
        rw [if_neg h]
      rcases ih with h2 | ⟨pre, suf, hs, heq⟩
      · left; rw [hne, h2]
      · right
        exact ⟨c :: pre, suf, by simp [hs], by rw [hne, heq]; rfl⟩

/-- `'/'` is not changed by lower-casing. -/
theorem lc_slash : lc '/' = '/' := by decide

theorem map_branch_eq {h k : Char → Char} {g : Char}
    (hyp : ∀ c, h c = k c ∨ h c = g) :
    ∀ {p : Str}, g ∉ p → ∀ {v : Str}, v.map h = p → v.map k = p := by
  intro p hg v
  induction v generalizing p with
  | nil => intro hv; simpa using hv.symm ▸ rfl
  | cons c t ih =>
    intro hv
    cases p with
    | nil => simp at hv
    | cons d ds =>
      simp only [List.map_cons, List.cons.injEq] at hv ⊢
      obtain ⟨h1, h2⟩ := hv
      have hgd : g ∉ ds := fun hm => hg (List.mem_cons_of_mem d hm)
      refine ⟨?_, ih hgd h2⟩
      rcases hyp c with hc | hc
      · rw [← hc, h1]
      · exfalso
        apply hg
        rw [← h1, hc]
        exact List.mem_cons_self _ _

theorem subS_map_congr {p : Str} {h k : Char → Char} {g : Char}
    (hyp : ∀ c, h c = k c ∨ h c = g) (hg : g ∉ p) {s : Str}
    (hsub : subS p (s.map h) = true) : subS p (s.map k) = true := by
  rw [subS_iff] at hsub ⊢
  obtain ⟨l, r, hlr⟩ := hsub
  have hlen : l.length + p.length ≤ s.length := by
    have := congrArg List.length hlr
    simp at this
    omega
  have hsplit : s = s.take l.length ++ ((s.drop l.length).take p.length ++
      (s.drop l.length).drop p.length) := by
    rw [List.take_append_drop, List.take_append_drop]
  have hmap : (s.take l.length).map h ++ (((s.drop l.length).take p.length).map h ++
      ((s.drop l.length).drop p.length).map h) = l ++ (p ++ r) := by
    rw [← List.map_append, ← List.map_append, ← hsplit, hlr, List.append_assoc]
  have hlen1 : ((s.take l.length).map h).length = l.length := by
    simp [List.length_take]
    omega
  obtain ⟨h1, h2⟩ := List.append_inj hmap hlen1
  have hlen2 : (((s.drop l.length).take p.length).map h).length = p.length := by
    simp [List.length_take, List.length_drop]
    omega
  obtain ⟨h3, h4⟩ := List.append_inj h2 hlen2
  have hmid : ((s.drop l.length).take p.length).map k = p := map_branch_eq hyp hg h3
  refine ⟨(s.take l.length).map k, ((s.drop l.length).drop p.length).map k, ?_⟩
  calc s.map k
      = ((s.take l.length) ++ ((s.drop l.length).take p.length ++
          (s.drop l.length).drop p.length)).map k := by rw [← hsplit]
    _ = (s.take l.length).map k ++ (((s.drop l.length).take p.length).map k ++
          ((s.drop l.length).drop p.length).map k) := by simp
    _ = _ := by rw [hmid, ← List.append_assoc]

theorem noTok_normSlashes {p s : Str} (hsl : '/' ∉ p) (h : NoTok p s) :
    NoTok p (normSlashes s) := by
  unfold NoTok at *
  cases hc : subS p (lowerS (normSlashes s)) with
  | false => rfl
  | true =>
    exfalso
    unfold lowerS normSlashes at hc
    rw [List.map_map] at hc
    have := subS_map_congr (h := lc ∘ fun c => if c = '\\' then '/' else c)
      (k := lc) (g := '/') (fun c => by
        by_cases hcc : c = '\\'
        · right; simp [hcc, Function.comp, lc_slash]
        · left; simp [hcc, Function.comp]) hsl hc
    have h2 : subS p (s.map lc) = false := h
    rw [h2] at this
    cases this

/-- The framework token, for `decide`-level facts below. -/
theorem slTok_ne_nil : slTok ≠ [] := by decide

theorem noSL_replA {pat rep : Str} (hrep : NoTok slTok rep) (hrepne : rep ≠ [])
    (hh : ∀ c, rep.head? = some c → lc c ∉ slTok)
    (hl : ∀ c, rep.getLast? = some c → lc c ∉ slTok)
    {s : Str} (hs : NoTok slTok s) : NoTok slTok (replA pat rep s) := by
  refine scanRepl_noTok _ ?_ s hs
  intro t m r _ hf
  unfold tryLit at hf
  split at hf
  · cases hf
    exact ⟨hrep, hrepne, hh, hl⟩
  · cases hf

theorem noSL_replACI {pat rep : Str} (hrep : NoTok slTok rep) (hrepne : rep ≠ [])
    (hh : ∀ c, rep.head? = some c → lc c ∉ slTok)
    (hl : ∀ c, rep.getLast? = some c → lc c ∉ slTok)
    {s : Str} (hs : NoTok slTok s) : NoTok slTok (replACI pat rep s) := by
  refine scanRepl_noTok _ ?_ s hs
  intro t m r _ hf
  unfold tryLitCI at hf
  split at hf
  · cases hf
    exact ⟨hrep, hrepne, hh, hl⟩
  · cases hf

theorem noSL_replF {pat rep : Str} (hrep : NoTok slTok rep) (hrepne : rep ≠ [])
    (hh : ∀ c, rep.head? = some c → lc c ∉ slTok)
    (hl : ∀ c, rep.getLast? = some c → lc c ∉ slTok)
    {s : Str} (hs : NoTok slTok s) : NoTok slTok (replF pat rep s) := by
  rcases replF_cases pat rep s with h | ⟨pre, suf, hsplit, heq⟩
  · rw [h]; exact hs
  · rw [heq]
    have hpre : NoTok slTok pre := noTok_of_part hs ⟨[], pat ++ suf, by simp [hsplit]⟩
    have hsuf : NoTok slTok suf := noTok_of_part hs ⟨pre ++ pat, [], by simp [hsplit]⟩
    have hrs : NoTok slTok (rep ++ suf) := by
      refine noTok_append (Or.inr ?_) hrep hsuf
      obtain ⟨c, hc⟩ : ∃ c, rep.getLast? = some c := by
        cases hg : rep.getLast? with
        | some c => exact ⟨c, rfl⟩
        | none => exact absurd (List.getLast?_eq_none_iff.mp hg) hrepne
      exact ⟨c, hc, hl c hc⟩
    refine noTok_append (Or.inl ?_) hpre hrs
    obtain ⟨c, hc⟩ : ∃ c, rep.head? = some c := by
      cases hg : rep.head? with
      | some c => exact ⟨c, rfl⟩
      | none => exact absurd (List.head?_eq_none_iff.mp hg) hrepne
    exact ⟨c, by rw [head?_append_of_ne_nil hrepne]; exact hc, hh c hc⟩

theorem noSL_replSuffix {pat rep : Str} (hrep : NoTok slTok rep)
    (hh : ∀ c, rep.head? = some c → lc c ∉ slTok)
    {s : Str} (hs : NoTok slTok s) : NoTok slTok (replSuffix pat rep s) := by
  unfold replSuffix
  split
  · by_cases hrepnil : rep = []
    · subst hrepnil
      simpa using noTok_take s (s.length - pat.length) hs
    · refine noTok_append (Or.inl ?_) (noTok_take s _ hs) hrep
      obtain ⟨c, hc⟩ : ∃ c, rep.head? = some c := by
        cases hg : rep.head? with
        | some c => exact ⟨c, rfl⟩
        | none => exact absurd (List.head?_eq_none_iff.mp hg) hrepnil
      exact ⟨c, hc, hh c hc⟩
  · exact hs

theorem noSL_replSuffixCI {pat rep : Str} (hrep : NoTok slTok rep)
    (hh : ∀ c, rep.head? = some c → lc c ∉ slTok)
    {s : Str} (hs : NoTok slTok s) : NoTok slTok (replSuffixCI pat rep s) := by
  unfold replSuffixCI
  split
  · by_cases hrepnil : rep = []
    · subst hrepnil
      simpa using noTok_take s (s.length - pat.length) hs
    · refine noTok_append (Or.inl ?_) (noTok_take s _ hs) hrep
      obtain ⟨c, hc⟩ : ∃ c, rep.head? = some c := by
        cases hg : rep.head? with
        | some c => exact ⟨c, rfl⟩
        | none => exact absurd (List.head?_eq_none_iff.mp hg) hrepnil
      exact ⟨c, hc, hh c hc⟩
  · exact hs

/-- Both conversion passes `/swiss-lib(/packages)?/ → /swiss-packages/`
preserve token-freeness. -/
theorem noSL_swissRepl {s : Str} (hs : NoTok slTok s) :
    NoTok slTok (replA (str "/swiss-lib/") (str "/swiss-packages/")
      (replA (str "/swiss-lib/packages/") (str "/swiss-packages/") s)) := by
  have h1 : NoTok slTok (str "/swiss-packages/") := by decide
  have hh : ∀ c, (str "/swiss-packages/").head? = some c → lc c ∉ slTok := by decide
  have hl : ∀ c, (str "/swiss-packages/").getLast? = some c → lc c ∉ slTok := by decide
  exact noSL_replA h1 (by decide) hh hl (noSL_replA h1 (by decide) hh hl hs)

theorem noSL_cdnUrl {spec : Str} (h : NoTok slTok spec) :
    NoTok slTok (cdnUrl spec) := by
  unfold cdnUrl
  rw [List.append_assoc]
  refine noTok_append (Or.inr ⟨'/', by decide, by decide⟩) (by decide) ?_
  exact noTok_append (Or.inl ⟨'/', by decide, by decide⟩) h (by decide)

theorem noSL_mkQuoted {q? : Option Char} {x : Str}
    (hq : q? = none ∨ ∃ q, q? = some q ∧ (q = dq ∨ q = sq))
    (hx : NoTok slTok x) : NoTok slTok (mkQuoted q? x) := by
  have main : ∀ q, (q = dq ∨ q = sq) → NoTok slTok (q :: x ++ [q]) := by
    intro q hqq
    show NoTok slTok ([q] ++ (x ++ [q]))
    have hq1 : NoTok slTok [q] := by rcases hqq with rfl | rfl <;> decide
    have hinner : NoTok slTok (x ++ [q]) :=
      noTok_append (Or.inl ⟨q, rfl, by rcases hqq with rfl | rfl <;> decide⟩) hx hq1
    exact noTok_append (Or.inr ⟨q, rfl, by rcases hqq with rfl | rfl <;> decide⟩) hq1 hinner
  rcases hq with rfl | ⟨q, rfl, hqq⟩
  · exact main dq (Or.inl rfl)
  · exact main q hqq

theorem noSL_splice {rw fin : Str} {off start stop : Int}
    (hrw : NoTok slTok rw) (hfin : NoTok slTok fin) (hfinne : fin ≠ [])
    (hh : ∀ c, fin.head? = some c → lc c ∉ slTok)
    (hl : ∀ c, fin.getLast? = some c → lc c ∉ slTok) :
    NoTok slTok (splice rw off start stop fin).1 := by
  unfold splice
  simp only []
  rw [List.append_assoc]
  have hslice1 := noTok_jsSlice rw 0 (start + off) hrw
  have hslice2 := noTok_jsSliceFrom rw (stop + off) hrw
  have hfs : NoTok slTok (fin ++ jsSliceFrom rw (stop + off)) := by
    refine noTok_append (Or.inr ?_) hfin hslice2
    obtain ⟨c, hc⟩ : ∃ c, fin.getLast? = some c := by
      cases hg : fin.getLast? with
      | some c => exact ⟨c, rfl⟩
      | none => exact absurd (List.getLast?_eq_none_iff.mp hg) hfinne
    exact ⟨c, hc, hl c hc⟩
  refine noTok_append (Or.inl ?_) hslice1 hfs
  obtain ⟨c, hc⟩ : ∃ c, fin.head? = some c := by
    cases hg : fin.head? with
    | some c => exact ⟨c, rfl⟩
    | none => exact absurd (List.head?_eq_none_iff.mp hg) hfinne
  exact ⟨c, by rw [head?_append_of_ne_nil hfinne]; exact hc, hh c hc⟩

theorem mkQuoted_ne_nil (q? : Option Char) (x : Str) : mkQuoted q? x ≠ [] := by
  cases q? <;> simp [mkQuoted]

theorem mkQuoted_head {q? : Option Char} {x : Str}
    (hq : q? = none ∨ ∃ q, q? = some q ∧ (q = dq ∨ q = sq)) :
    ∀ c, (mkQuoted q? x).head? = some c → lc c ∉ slTok := by
  rcases hq with rfl | ⟨q, rfl, hqq⟩
  · intro c hc
    simp [mkQuoted] at hc
    subst hc; decide
  · intro c hc
    simp [mkQuoted] at hc
    subst hc
    rcases hqq with rfl | rfl <;> decide

theorem mkQuoted_last {q? : Option Char} {x : Str}
    (hq : q? = none ∨ ∃ q, q? = some q ∧ (q = dq ∨ q = sq)) :
    ∀ c, (mkQuoted q? x).getLast? = some c → lc c ∉ slTok := by
  have main : ∀ q, (q = dq ∨ q = sq) → ∀ c, ((q :: x ++ [q]) : Str).getLast? = some c →
      lc c ∉ slTok := by
    intro q hqq c hc
    have : ((q :: x ++ [q]) : Str).getLast? = some q := by
      show ((q :: x) ++ [q] : Str).getLast? = some q
      rw [List.getLast?_append]
      rfl
    rw [this] at hc
    cases hc
    rcases hqq with rfl | rfl <;> decide
  rcases hq with rfl | ⟨q, rfl, hqq⟩
  · exact main dq (Or.inl rfl)
  · exact main q hqq

/-- Splicing a quoted token-free specifier keeps the text token-free. -/
theorem noSL_spliceQuoted {rw x : Str} {q? : Option Char} {off start stop : Int}
    (hrw : NoTok slTok rw)
    (hq : q? = none ∨ ∃ q, q? = some q ∧ (q = dq ∨ q = sq))
    (hx : NoTok slTok x) :
    NoTok slTok (splice rw off start stop (mkQuoted q? x)).1 :=
  noSL_splice hrw (noSL_mkQuoted hq hx) (mkQuoted_ne_nil q? x)
    (mkQuoted_head hq) (mkQuoted_last hq)

theorem subS_refl (p : Str) : subS p p = true :=
  (subS_iff p p).mpr ⟨[], [], by simp⟩

theorem findQuoted_quote {spec : Str} :
    ∀ {code : Str} {i : Nat} {q : Char},
      findQuoted spec code = some (i, q) → q = dq ∨ q = sq := by
  intro code
  induction code with
  | nil => intro i q h; cases h
  | cons c cs ih =>
    intro i q h
    unfold findQuoted at h
    split at h
    · cases h
      next hcond => exact hcond.1
    · cases hr : findQuoted spec cs with
      | none => rw [hr] at h; cases h
      | some pr =>
        rw [hr] at h
        cases h
        exact ih hr

/-- What `extractSpec` can return: a specifier cut out of the script, and a
quote character that is one of the two string quotes. -/
theorem extractSpec_sound {code : Str} {imp : Imp} {a : Str} {q? : Option Char}
    {start stop : Int} (h : extractSpec code imp = some (a, q?, start, stop)) :
    (a <:+: code) ∧ (q? = none ∨ ∃ q, q? = some q ∧ (q = dq ∨ q = sq)) := by
  unfold extractSpec at h
  dsimp only at h
  split at h
  · -- hasQuotes
    cases h
    constructor
    · exact (jsSlice_part _ 1 (-1)).trans (jsSlice_part code imp.s imp.e)
    · cases hh : (jsSlice code imp.s imp.e).head? with
      | none =>
        next hq =>
          rw [hh] at hq
          cases hg : (jsSlice code imp.s imp.e).getLast? with
          | none => rw [hg] at hq; simp at hq
          | some g => rw [hg] at hq; simp at hq
      | some fc =>
        next hq =>
          rw [hh] at hq
          cases hg : (jsSlice code imp.s imp.e).getLast? with
          | none => rw [hg] at hq; simp at hq
          | some g =>
            rw [hg] at hq
            simp only [decide_eq_true_eq] at hq
            exact Or.inr ⟨fc, by simp [hh], hq.1⟩
  · split at h
    · -- codeBefore branch
      cases h
      next hcb =>
        refine ⟨jsSlice_part code imp.s imp.e, Or.inr ?_⟩
        rcases hcb.1 with hb | hb
        · exact ⟨dq, by rw [hb]; rfl, Or.inl rfl⟩
        · exact ⟨sq, by rw [hb]; rfl, Or.inr rfl⟩
    · -- findQuoted branch
      split at h
      · cases h
        next i q hfq =>
          exact ⟨jsSlice_part code imp.s imp.e, Or.inr ⟨q, rfl, findQuoted_quote hfq⟩⟩
      · cases h

theorem relJsExt_cases (importer : Str) :
    relJsExt importer = str ".ts" ∨ relJsExt importer = str ".ui" ∨
      relJsExt importer = str ".uix" := by
  unfold relJsExt
  dsimp only
  split
  · exact Or.inl rfl
  · split
    · exact Or.inl rfl
    · split
      · split
        · exact Or.inr (Or.inl rfl)
        · exact Or.inr (Or.inr rfl)
      · exact Or.inl rfl

theorem lazyBody_prefix {q : Char} :
    ∀ {u body : Str}, lazyBody q u = some body →
      body ++ (str ".js" ++ [q]) <+: u := by
  intro u
  induction u with
  | nil => intro body h; cases h
  | cons c cs ih =>
    intro body h
    unfold lazyBody at h
    split at h
    · cases h
      next hpre =>
        simpa using List.isPrefixOf_iff_prefix.mp hpre
    · split at h
      · cases h
      · cases hr : lazyBody q cs with
        | none => rw [hr] at h; cases h
        | some b =>
          rw [hr] at h
          cases h
          have := ih hr
          obtain ⟨t, ht⟩ := this
          exact ⟨t, by simpa using congrArg (c :: ·) ht⟩

theorem noSL_relJsMatched {ws path : Str} {q : Char}
    (hq : q = dq ∨ q = sq) (hws : NoTok slTok ws) (hpath : NoTok slTok path)
    (hpathhead : path.head? = some '.') :
    NoTok slTok (str "from" ++ ws ++ [q] ++ path ++ str ".js" ++ [q]) := by
  have hq1 : NoTok slTok [q] := by rcases hq with rfl | rfl <;> decide
  have hqg : lc q ∉ slTok := by rcases hq with rfl | rfl <;> decide
  have m1 : NoTok slTok (str "from" ++ ws) :=
    noTok_append (Or.inr ⟨'m', by decide, by decide⟩) (by decide) hws
  have m2 : NoTok slTok (str "from" ++ ws ++ [q]) :=
    noTok_append (Or.inl ⟨q, rfl, hqg⟩) m1 hq1
  have m3 : NoTok slTok (str "from" ++ ws ++ [q] ++ path) :=
    noTok_append (Or.inl ⟨'.', hpathhead, by decide⟩) m2 hpath
  have m4 : NoTok slTok (str "from" ++ ws ++ [q] ++ path ++ str ".js") :=
    noTok_append (Or.inl ⟨'.', rfl, by decide⟩) m3 (by decide)
  exact noTok_append (Or.inl ⟨q, rfl, hqg⟩) m4 hq1

theorem noSL_relJsRep (importer : Str) {path : Str} {q : Char}
    (hq : q = dq ∨ q = sq) (hpath : NoTok slTok path)
    (hpathhead : path.head? = some '.') :
    NoTok slTok (str "from " ++ [q] ++ path ++ relJsExt importer ++ [q]) := by
  have hq1 : NoTok slTok [q] := by rcases hq with rfl | rfl <;> decide
  have hqg : lc q ∉ slTok := by rcases hq with rfl | rfl <;> decide
  have hextfree : NoTok slTok (relJsExt importer) := by
    rcases relJsExt_cases importer with he | he | he <;> rw [he] <;> decide
  have hexthead : (relJsExt importer).head? = some '.' := by
    rcases relJsExt_cases importer with he | he | he <;> rw [he] <;> rfl
  have m1 : NoTok slTok (str "from " ++ [q]) :=
    noTok_append (Or.inl ⟨q, rfl, hqg⟩) (by decide) hq1
  have m2 : NoTok slTok (str "from " ++ [q] ++ path) :=
    noTok_append (Or.inl ⟨'.', hpathhead, by decide⟩) m1 hpath
  have m3 : NoTok slTok (str "from " ++ [q] ++ path ++ relJsExt importer) :=
    noTok_append (Or.inl ⟨'.', hexthead, by decide⟩) m2 hextfree
  exact noTok_append (Or.inl ⟨q, rfl, hqg⟩) m3 hq1

theorem tryRelJsCore_inst (importer ws : Str) (q : Char) (t3 : Str)
    (hws : NoTok slTok ws) (ht3 : NoTok slTok t3) {m rep : Str}
    (h : tryRelJsCore importer ws q t3 = some (m, rep)) :
    NoTok slTok rep ∧ rep ≠ [] ∧
    (∀ c, rep.head? = some c → lc c ∉ slTok) ∧
    (∀ c, rep.getLast? = some c → lc c ∉ slTok) := by
  unfold tryRelJsCore at h
  split at h
  case isFalse => cases h
  case isTrue hq =>
    have hqg : lc q ∉ slTok := by rcases hq with rfl | rfl <;> decide
    split at h
    case h_1 => cases h
    case h_2 dots hdots =>
      have hdots_facts : (dots = str "../" ∨ dots = str "./") ∧ dots <+: t3 := by
        split at hdots
        case isTrue hst =>
          cases hdots
          exact ⟨Or.inl rfl, List.isPrefixOf_iff_prefix.mp hst⟩
        case isFalse =>
          split at hdots
          case isTrue hst =>
            cases hdots
            exact ⟨Or.inr rfl, List.isPrefixOf_iff_prefix.mp hst⟩
          case isFalse => cases hdots
      split at h
      case h_1 => cases h
      case h_2 body hbody =>
        have hpath_pre : dots ++ body <+: t3 := by
          obtain ⟨u2, hu2⟩ := hdots_facts.2
          have hdrop : t3.drop dots.length = u2 := by
            have := congrArg (List.drop dots.length) hu2
            rw [List.drop_left] at this
            exact this.symm
          obtain ⟨u3, hu3⟩ := lazyBody_prefix (hdrop ▸ hbody)
          exact ⟨str ".js" ++ [q] ++ u3, by rw [← hu2, ← hu3]; simp⟩
        have hpath : NoTok slTok (dots ++ body) :=
          noTok_of_part ht3 hpath_pre.isInfix
        have hpathhead : (dots ++ body).head? = some '.' := by
          rcases hdots_facts.1 with rfl | rfl <;> rfl
        have hmat := noSL_relJsMatched hq hws hpath hpathhead
        have hmat_last : ∀ c,
            (str "from" ++ ws ++ [q] ++ (dots ++ body) ++ str ".js" ++ [q]).getLast? = some c →
            lc c ∉ slTok := by
          intro c hc
          rw [List.getLast?_append] at hc
          cases hc
          exact hqg
        have hmat_head : ∀ c,
            (str "from" ++ ws ++ [q] ++ (dots ++ body) ++ str ".js" ++ [q]).head? = some c →
            lc c ∉ slTok := by
          intro c hc
          have hf : (str "from" ++ ws ++ [q] ++ (dots ++ body) ++ str ".js" ++ [q]).head? =
              some 'f' := rfl
          rw [hf] at hc
          cases hc
          decide
        split at h
        · cases h
          exact ⟨hmat, List.cons_ne_nil _ _, hmat_head, hmat_last⟩
        · cases h
          refine ⟨noSL_relJsRep importer hq hpath hpathhead, List.cons_ne_nil _ _, ?_, ?_⟩
          · intro c hc
            have hf : (str "from " ++ [q] ++ (dots ++ body) ++ relJsExt importer ++ [q]).head? =
                some 'f' := rfl
            rw [hf] at hc
            cases hc
            decide
          · intro c hc
            rw [List.getLast?_append] at hc
            cases hc
            exact hqg

/-- The backstop matcher only produces token-free, boundary-guarded
replacements on token-free text. -/
theorem tryRelJs_inst (importer : Str) :
    ∀ t m rep, NoTok slTok t → tryRelJs importer t = some (m, rep) →
      NoTok slTok rep ∧ rep ≠ [] ∧
      (∀ c, rep.head? = some c → lc c ∉ slTok) ∧
      (∀ c, rep.getLast? = some c → lc c ∉ slTok) := by
  intro t m rep ht h
  unfold tryRelJs at h
  split at h
  case isFalse => cases h
  case isTrue =>
    split at h
    case isTrue => cases h
    case isFalse =>
      split at h
      case h_1 => cases h
      case h_2 q t3 hqt3 =>
        have hws_free : NoTok slTok ((t.drop 4).takeWhile isWsChar) :=
          noTok_of_part ht
            (((List.takeWhile_prefix _).isInfix).trans (List.drop_suffix 4 t).isInfix)
        have ht3_free : NoTok slTok t3 := by
          have h1 : q :: t3 <:+ t.drop 4 := hqt3 ▸ List.drop_suffix _ _
          have h2 : t3 <:+ q :: t3 := ⟨[q], rfl⟩
          exact noTok_of_part ht ((h2.trans h1).trans (List.drop_suffix 4 t)).isInfix
        exact tryRelJsCore_inst importer _ q t3 hws_free ht3_free h

/-- The final quoted-prefix pass likewise. -/
theorem tryQuoteSwiss_inst :
    ∀ t m rep, NoTok slTok t → tryQuoteSwiss t = some (m, rep) →
      NoTok slTok rep ∧ rep ≠ [] ∧
      (∀ c, rep.head? = some c → lc c ∉ slTok) ∧
      (∀ c, rep.getLast? = some c → lc c ∉ slTok) := by
  intro t m rep _ h
  cases t with
  | nil => simp [tryQuoteSwiss] at h
  | cons q rest =>
    simp only [tryQuoteSwiss] at h
    split at h
    case isFalse => cases h
    case isTrue hcond =>
      cases h
      have hq := hcond.1
      have hqg : lc q ∉ slTok := by rcases hq with rfl | rfl <;> decide
      refine ⟨?_, List.cons_ne_nil _ _, ?_, ?_⟩
      · rcases hq with rfl | rfl <;> decide
      · intro c hc
        cases hc
        exact hqg
      · intro c hc
        have hl : ((q :: str "/swiss-packages/") : Str).getLast? = some '/' := by
          rcases hq with rfl | rfl <;> decide
        rw [hl] at hc
        cases hc
        decide

/-!
Token-freeness through one loop iteration and through `rewriteImports`.
-/

theorem repairExt_cases (ctx : RewriteCtx) (importer actual : Str) :
    repairExt ctx importer actual = str ".ts" ∨
    repairExt ctx importer actual = str ".ui" ∨
    repairExt ctx importer actual = str ".uix" := by
  unfold repairExt
  repeat' split
  all_goals first
    | exact Or.inl rfl
    | exact Or.inr (Or.inl rfl)
    | exact Or.inr (Or.inr rfl)

theorem noSL_resolveWithFallback (ctx : RewriteCtx) (importer actual : Str)
    (hact : NoTok slTok actual)
    (hres : ∀ sp im r, ctx.resolveFn sp im = .ok r → NoTok slTok r) :
    NoTok slTok (resolveWithFallback ctx importer actual) := by
  unfold resolveWithFallback
  have h0 : NoTok slTok (match ctx.resolveFn actual importer with
      | .ok r =>
        if r = [] ∨ r = actual ∨ (¬ startsW r (str "/") ∧ ¬ startsW r (str "http")) then
          cdnUrl actual
        else r
      | .error _ => cdnUrl actual) := by
    cases hr : ctx.resolveFn actual importer with
    | ok r =>
      dsimp only
      split
      · exact noSL_cdnUrl hact
      · exact hres _ _ _ hr
    | error e => exact noSL_cdnUrl hact
  dsimp only
  split
  · refine noSL_replSuffix (by decide) (by decide) ?_
    exact noSL_replF (by decide) (by decide) (by decide) (by decide) h0
  · exact h0

theorem mkQuoted_part (q? : Option Char) (x : Str) : x <:+: mkQuoted q? x := by
  cases q? with
  | none => exact ⟨[dq], [dq], rfl⟩
  | some q => exact ⟨[q], [q], rfl⟩

theorem noSL_stepResolveBranch (ctx : RewriteCtx) (importer rw : Str) (off : Int)
    (actual : Str) (q? : Option Char) (start stop : Int)
    (hrw : NoTok slTok rw) (hact : NoTok slTok actual)
    (hq : q? = none ∨ ∃ q, q? = some q ∧ (q = dq ∨ q = sq))
    (hres : ∀ sp im r, ctx.resolveFn sp im = .ok r → NoTok slTok r) :
    NoTok slTok (stepResolveBranch ctx importer rw off actual q? start stop).1 := by
  unfold stepResolveBranch
  have hresolved := noSL_resolveWithFallback ctx importer actual hact hres
  have hfree : NoTok slTok (splice rw off start stop
      (mkQuoted q? (resolveWithFallback ctx importer actual))).1 :=
    noSL_spliceQuoted hrw hq hresolved
  have hsub : subS (resolveWithFallback ctx importer actual)
      (splice rw off start stop
        (mkQuoted q? (resolveWithFallback ctx importer actual))).1 = true := by
    refine subS_of_part ?_ (subS_refl _)
    refine (mkQuoted_part q? _).trans ?_
    unfold splice
    exact ⟨jsSlice rw 0 (start + off), jsSliceFrom rw (stop + off), by simp⟩
  dsimp only
  rw [if_neg]
  · exact hfree
  · rintro ⟨-, h2⟩
    exact h2 hsub

theorem noSL_stepCore (ctx : RewriteCtx) (importer rw : Str) (off : Int)
    (actual : Str) (q? : Option Char) (start stop : Int)
    (hrw : NoTok slTok rw) (hact : NoTok slTok actual)
    (hq : q? = none ∨ ∃ q, q? = some q ∧ (q = dq ∨ q = sq))
    (hres : ∀ sp im r, ctx.resolveFn sp im = .ok r → NoTok slTok r) :
    NoTok slTok (stepCore ctx importer rw off actual q? start stop).1 := by
  unfold stepCore
  split
  · refine noSL_spliceQuoted hrw hq ?_
    have hbase := noTok_jsSlice actual 0 (-3) hact
    rcases repairExt_cases ctx importer actual with he | he | he <;> rw [he] <;>
      exact noTok_append (Or.inl ⟨'.', rfl, by decide⟩) hbase (by decide)
  · split
    · refine noSL_spliceQuoted hrw hq ?_
      exact noSL_replA (by decide) (by decide) (by decide) (by decide) hact
    · split
      · exact hrw
      · split
        · exact hrw
        · exact noSL_stepResolveBranch ctx importer rw off actual q? start stop
            hrw hact hq hres

theorem noSL_stepImp (ctx : RewriteCtx) (code importer : Str) (st : Str × Int)
    (imp : Imp) (hcode : NoTok slTok code) (hst : NoTok slTok st.1)
    (hres : ∀ sp im r, ctx.resolveFn sp im = .ok r → NoTok slTok r) :
    NoTok slTok (stepImp ctx code importer st imp).1 := by
  unfold stepImp
  dsimp only
  split
  · exact hst
  · split
    · exact hst
    · next a q? start stop hex =>
      obtain ⟨hainf, hq⟩ := extractSpec_sound hex
      exact noSL_stepCore ctx importer st.1 st.2 a q? start stop hst
        (noTok_of_part hcode hainf) hq hres

theorem noSL_foldImps (ctx : RewriteCtx) (code importer : Str)
    (hcode : NoTok slTok code)
    (hres : ∀ sp im r, ctx.resolveFn sp im = .ok r → NoTok slTok r) :
    ∀ (l : List Imp) (st : Str × Int), NoTok slTok st.1 →
      NoTok slTok (l.foldl (stepImp ctx code importer) st).1 := by
  intro l
  induction l with
  | nil => intro st hst; exact hst
  | cons i is ih =>
    intro st hst
    exact ih (stepImp ctx code importer st i)
      (noSL_stepImp ctx code importer st i hcode hst hres)

/-- The rewriter never materializes the internal token: over any lexer
behavior and any filesystem, if the script and every successful resolver
output are free of `swiss-lib` (case-insensitively), so is the output. -/
theorem noSL_rewriteImports (ctx : RewriteCtx) (code importer : Str)
    (hcode : NoTok slTok code)
    (hres : ∀ sp im r, ctx.resolveFn sp im = .ok r → NoTok slTok r) :
    NoTok slTok (rewriteImports ctx code importer) := by
  unfold rewriteImports
  cases hl : ctx.lex code with
  | error e => exact hcode
  | ok imports =>
    dsimp only
    split
    · exact hcode
    · have hrw := noSL_foldImps ctx code importer hcode hres imports (code, 0) hcode
      split
      · exact hcode
      · have hrw2 : NoTok slTok (scanRepl (tryRelJs importer)
            (imports.foldl (stepImp ctx code importer) (code, 0)).1) :=
          scanRepl_noTok (tryRelJs importer)
            (fun t m rep ht hf => tryRelJs_inst importer t m rep ht hf) _ hrw
        split
        · exact scanRepl_noTok tryQuoteSwiss
            (fun t m rep ht hf => tryQuoteSwiss_inst t m rep ht hf) _
            (noSL_swissRepl hrw2)
        · exact hrw2

/-!
Token-freeness through the `path.posix` model and through `toUrl`.
-/

theorem splitCh_ne_nil (c : Char) (s : Str) : splitCh c s ≠ [] := by
  induction s with
  | nil => simp [splitCh]
  | cons x xs ih =>
    unfold splitCh
    split
    · simp
    · cases h : splitCh c xs with
      | nil => simp
      | cons p ps => simp

theorem splitCh_first_prefix {c : Char} :
    ∀ {s : Str} {p : Str} {ps : List Str}, splitCh c s = p :: ps → p <+: s := by
  intro s
  induction s with
  | nil =>
    intro p ps h
    unfold splitCh at h
    cases h
    exact List.nil_prefix
  | cons x xs ih =>
    intro p ps h
    unfold splitCh at h
    split at h
    · cases h
      exact List.nil_prefix
    · cases hs : splitCh c xs with
      | nil => exact absurd hs (splitCh_ne_nil c xs)
      | cons q qs =>
        rw [hs] at h
        cases h
        obtain ⟨t, ht⟩ := ih hs
        exact ⟨t, by rw [← ht]; rfl⟩

theorem splitCh_part {c : Char} :
    ∀ {s : Str} {piece : Str}, piece ∈ splitCh c s → piece <:+: s := by
  intro s
  induction s with
  | nil =>
    intro piece h
    unfold splitCh at h
    simp at h
    simp [h]
  | cons x xs ih =>
    intro piece h
    unfold splitCh at h
    split at h
    · rcases List.mem_cons.mp h with rfl | hm
      · simp
      · exact (ih hm).trans ⟨[x], [], by simp⟩
    · cases hs : splitCh c xs with
      | nil => exact absurd hs (splitCh_ne_nil c xs)
      | cons q qs =>
        rw [hs] at h
        rcases List.mem_cons.mp h with rfl | hm
        · obtain ⟨t, ht⟩ := splitCh_first_prefix hs
          exact (show (x :: q : Str) <+: x :: xs from ⟨t, by rw [← ht]; rfl⟩).isInfix
        · have : piece ∈ splitCh c xs := hs ▸ List.mem_cons_of_mem q hm
          exact (ih this).trans ⟨[x], [], by simp⟩

theorem normStack_mem (isAbs : Bool) :
    ∀ (segs stack : List Str) (x : Str), x ∈ normStack isAbs stack segs →
      x ∈ stack ∨ x ∈ segs ∨ x = str ".." := by
  intro segs
  induction segs with
  | nil =>
    intro stack x h
    exact Or.inl h
  | cons seg rest ih =>
    intro stack x h
    unfold normStack at h
    split at h
    · rcases ih stack x h with h2 | h2 | h2
      · exact Or.inl h2
      · exact Or.inr (Or.inl (List.mem_cons_of_mem seg h2))
      · exact Or.inr (Or.inr h2)
    · split at h
      case isTrue hdd =>
        split at h
        case h_1 =>
          split at h
          · rcases ih [] x h with h2 | h2 | h2
            · simp at h2
            · exact Or.inr (Or.inl (List.mem_cons_of_mem seg h2))
            · exact Or.inr (Or.inr h2)
          · rcases ih [str ".."] x h with h2 | h2 | h2
            · exact Or.inr (Or.inr (List.mem_singleton.mp h2))
            · exact Or.inr (Or.inl (List.mem_cons_of_mem seg h2))
            · exact Or.inr (Or.inr h2)
        case h_2 top stk =>
          split at h
          · rcases ih (seg :: top :: stk) x h with h2 | h2 | h2
            · rcases List.mem_cons.mp h2 with rfl | h3
              · exact Or.inr (Or.inr hdd)
              · exact Or.inl h3
            · exact Or.inr (Or.inl (List.mem_cons_of_mem seg h2))
            · exact Or.inr (Or.inr h2)
          · rcases ih stk x h with h2 | h2 | h2
            · exact Or.inl (List.mem_cons_of_mem top h2)
            · exact Or.inr (Or.inl (List.mem_cons_of_mem seg h2))
            · exact Or.inr (Or.inr h2)
      case isFalse =>
        rcases ih (seg :: stack) x h with h2 | h2 | h2
        · rcases List.mem_cons.mp h2 with rfl | h3
          · exact Or.inr (Or.inl (List.mem_cons_self _ _))
          · exact Or.inl h3
        · exact Or.inr (Or.inl (List.mem_cons_of_mem seg h2))
        · exact Or.inr (Or.inr h2)

theorem noSL_joinCh :
    ∀ (l : List Str), (∀ x ∈ l, NoTok slTok x) → NoTok slTok (joinCh '/' l) := by
  intro l
  induction l with
  | nil => intro _; decide
  | cons p ps ih =>
    intro hall
    cases ps with
    | nil => exact hall p (List.mem_singleton.mpr rfl)
    | cons q qs =>
      have hstep : joinCh '/' (p :: q :: qs) = p ++ ('/' :: joinCh '/' (q :: qs)) := rfl
      rw [hstep]
      have hrest : NoTok slTok (joinCh '/' (q :: qs)) :=
        ih (fun x hx => hall x (List.mem_cons_of_mem p hx))
      have hinner : NoTok slTok (('/' :: joinCh '/' (q :: qs)) : Str) :=
        @noTok_append slTok ['/'] (joinCh '/' (q :: qs))
          (Or.inr ⟨'/', rfl, by decide⟩) (by decide) hrest
      exact noTok_append (Or.inl ⟨'/', rfl, by decide⟩)
        (hall p (List.mem_cons_self _ _)) hinner

theorem noSL_normalizeP {s : Str} (hs : NoTok slTok s) :
    NoTok slTok (normalizeP s) := by
  unfold normalizeP
  dsimp only
  have hbody : NoTok slTok (joinCh '/'
      ((normStack (startsW s (str "/")) [] (splitCh '/' s)).reverse)) := by
    refine noSL_joinCh _ ?_
    intro x hx
    rw [List.mem_reverse] at hx
    rcases normStack_mem _ _ _ _ hx with h2 | h2 | h2
    · simp at h2
    · exact noTok_of_part hs (splitCh_part h2)
    · rw [h2]; decide
  split
  · exact @noTok_append slTok ['/'] _ (Or.inr ⟨'/', rfl, by decide⟩) (by decide) hbody
  · split
    · decide
    · exact hbody

theorem noSL_append_slash {a b : Str} (ha : NoTok slTok a) (hb : NoTok slTok b) :
    NoTok slTok (a ++ '/' :: b) := by
  have hinner : NoTok slTok (('/' :: b) : Str) :=
    @noTok_append slTok ['/'] b (Or.inr ⟨'/', rfl, by decide⟩) (by decide) hb
  exact noTok_append (Or.inl ⟨'/', rfl, by decide⟩) ha hinner

theorem noSL_resolve1 {cwd p : Str} (hc : NoTok slTok cwd) (hp : NoTok slTok p) :
    NoTok slTok (resolve1 cwd p) := by
  unfold resolve1
  split
  · exact noSL_normalizeP hp
  · exact noSL_normalizeP (noSL_append_slash hc hp)

theorem noSL_relativeP {cwd f t : Str} (hc : NoTok slTok cwd)
    (hf : NoTok slTok f) (ht : NoTok slTok t) :
    NoTok slTok (relativeP cwd f t) := by
  unfold relativeP
  dsimp only
  split
  · decide
  · refine noSL_joinCh _ ?_
    intro x hx
    rcases List.mem_append.mp hx with h2 | h2
    · rw [List.eq_of_mem_replicate h2]; decide
    · have h3 : x ∈ (splitCh '/' (resolve1 cwd t)).filter (· ≠ []) :=
        List.mem_of_mem_drop h2
      have h4 : x ∈ splitCh '/' (resolve1 cwd t) := List.mem_of_mem_filter h3
      exact noTok_of_part (noSL_resolve1 hc ht) (splitCh_part h4)

theorem noSL_normalizeResult {s : Str} (hs : NoTok slTok s) :
    NoTok slTok (normalizeResult s) := by
  unfold normalizeResult
  dsimp only
  refine noTok_normSlashes (by decide) ?_
  split
  · exact noSL_swissRepl hs
  · exact hs

theorem exceptBind_ok {α β : Type} (a : α) (f : α → Except Unit β) :
    ((Except.ok a : Except Unit α) >>= f) = f a := rfl

theorem exceptBind_err {α β : Type} (e : Unit) (f : α → Except Unit β) :
    ((Except.error e : Except Unit α) >>= f) = Except.error e := rfl

theorem exceptPure {α : Type} (a : α) :
    (pure a : Except Unit α) = Except.ok a := rfl

theorem normSlashes_abs {s : Str} (h : isAbsP s = true) :
    startsW (normSlashes s) (str "/") = true := by
  cases s with
  | nil => simp [isAbsP, startsW, str, List.isPrefixOf] at h
  | cons c cs =>
    have hc : c = '/' := by
      simp [isAbsP, startsW, str, List.isPrefixOf] at h
      first
      | exact h
      | exact h.symm
      | exact h.1
      | exact h.1.symm
    subst hc
    simp [normSlashes, startsW, str, List.isPrefixOf]

/-- `toUrl` never materializes the internal token: when the path, the
application root and the working directory are token-free, any URL it
returns is token-free.  (Every string the context can contribute to the
output flows through these three.) -/
theorem noSL_toUrlE (ctx : UrlCtx) (filePath r : Str)
    (hfp : NoTok slTok filePath) (hroot : NoTok slTok ctx.root)
    (hcwd : NoTok slTok ctx.cwd)
    (h : toUrlE ctx filePath = .ok r) : NoTok slTok r := by
  have hnorm : NoTok slTok (normSlashes filePath) := noTok_normSlashes (by decide) hfp
  have hsp : NoTok slTok (str "/src/") := by decide
  have hts : NoTok slTok (str ".ts") := by decide
  unfold toUrlE at h
  dsimp only at h
  split at h
  case isTrue =>
    split at h
    case isTrue =>
      have hwp : NoTok slTok
          (replA (str "/swiss-lib/packages/") (str "/swiss-packages/") (normSlashes filePath)) :=
        noSL_replA (by decide) (by decide) (by decide) (by decide) hnorm
      have hsrc : NoTok slTok (replSuffix (str ".js") (str ".ts")
          (replF (str "/dist/") (str "/src/")
            (replA (str "/swiss-lib/packages/") (str "/swiss-packages/") (normSlashes filePath)))) :=
        noSL_replSuffix hts (by decide)
          (noSL_replF hsp (by decide) (by decide) (by decide) hwp)
      split at h
      case isTrue =>
        cases hw : ctx.wsRoot with
        | error e => rw [hw, exceptBind_err] at h; cases h
        | ok w =>
          rw [hw, exceptBind_ok] at h
          split at h
          · rw [exceptPure] at h
            cases h
            exact noSL_normalizeResult hsrc
          · rw [exceptPure] at h
            cases h
            exact noSL_normalizeResult hwp
      case isFalse =>
        rw [exceptPure] at h
        cases h
        exact noSL_normalizeResult hwp
    case isFalse =>
      have hsrc : NoTok slTok (replSuffix (str ".js") (str ".ts")
          (replF (str "/dist/") (str "/src/") (normSlashes filePath))) :=
        noSL_replSuffix hts (by decide)
          (noSL_replF hsp (by decide) (by decide) (by decide) hnorm)
      split at h
      case isTrue =>
        cases hw : ctx.wsRoot with
        | error e => rw [hw, exceptBind_err] at h; cases h
        | ok w =>
          rw [hw, exceptBind_ok] at h
          split at h
          · rw [exceptPure] at h
            cases h
            exact noSL_normalizeResult hsrc
          · rw [exceptPure] at h
            cases h
            exact noSL_normalizeResult hnorm
      case isFalse =>
        rw [exceptPure] at h
        cases h
        exact noSL_normalizeResult hnorm
  case isFalse hcond =>
    split at h
    case isTrue habs =>
      exfalso
      exact hcond (Or.inl (normSlashes_abs habs))
    case isFalse =>
      rw [exceptPure] at h
      cases h
      refine noSL_normalizeResult ?_
      exact @noTok_append slTok ['/'] _ (Or.inr ⟨'/', rfl, by decide⟩) (by decide)
        (noTok_normSlashes (by decide) (noSL_relativeP hcwd hroot hfp))

/-!
Identity of `scanRepl` when no suffix matches, and imports the rewriting
loop leaves untouched.
-/

theorem scanRepl_id (f : Str → Option (Str × Str)) (s : Str)
    (hf : ∀ t, t <:+ s → f t = none) : scanRepl f s = s := by
  rcases scanRepl_cases f s with h | ⟨pre, rest, m, rep, hs, _, hfr, _, _, _⟩
  · exact h
  · have : f rest = none := hf rest ⟨pre, hs.symm⟩
    rw [this] at hfr
    cases hfr

theorem noRelJsMatch_suffix {importer code t : Str}
    (h : noRelJsMatch importer code = true) (ht : t <:+ code) :
    tryRelJs importer t = none := by
  obtain ⟨u, hu⟩ := ht
  have hn : u.length < code.length + 1 := by
    have := congrArg List.length hu
    simp only [List.length_append] at this
    omega
  have hall := (List.all_eq_true.mp h) u.length (List.mem_range.mpr hn)
  have hd : code.drop u.length = t := by
    rw [← hu, List.drop_left]
  rw [hd] at hall
  exact Option.isNone_iff_eq_none.mp (by simpa using hall)

theorem stepImp_untouched (ctx : RewriteCtx) (code importer : Str) (st : Str × Int)
    (imp : Imp) (h : specUntouched code imp = true) :
    stepImp ctx code importer st imp = st := by
  unfold stepImp
  unfold specUntouched at h
  cases hcss : subS (str ".css") (jsSlice code imp.s imp.e) with
  | true => simp only [hcss, reduceIte]
  | false =>
    rw [hcss] at h
    simp only [Bool.false_or] at h
    simp only [hcss, Bool.false_eq_true, reduceIte]
    cases hex : extractSpec code imp with
    | none => rfl
    | some tup =>
      obtain ⟨a, q?, start, stop⟩ := tup
      rw [hex] at h
      simp only [Bool.and_eq_true, Bool.not_eq_eq_eq_not, Bool.not_true] at h
      obtain ⟨⟨h1, h2⟩, h3⟩ := h
      dsimp only
      unfold stepCore
      have hc1 : ¬ (startsW a (str ".") = true ∧ endsW a (str ".js") = true ∧
          ¬ subS (str "node_modules") a = true) := by
        rintro ⟨ha, hb, hc⟩
        have hcf : subS (str "node_modules") a = false := by
          cases hx : subS (str "node_modules") a
          · rfl
          · exact absurd hx hc
        rw [ha, hb, hcf] at h2
        simp at h2
      have hc2 : ¬ subS (str "/swiss-lib/") a = true := by
        intro hsl
        rw [h3] at hsl
        cases hsl
      have hc3 : startsW a (str ".") = true ∨ startsW a (str "/") = true := by
        rcases Bool.or_eq_true _ _ |>.mp h1 with hh | hh
        · exact Or.inl hh
        · exact Or.inr hh
      rw [if_neg hc1, if_neg hc2, if_pos hc3]

theorem foldImps_untouched (ctx : RewriteCtx) (code importer : Str) :
    ∀ (imports : List Imp) (st : Str × Int),
      (∀ imp ∈ imports, specUntouched code imp = true) →
      imports.foldl (stepImp ctx code importer) st = st := by
  intro imports
  induction imports with
  | nil => intro st _; rfl
  | cons i is ih =>
    intro st h
    rw [List.foldl_cons, stepImp_untouched ctx code importer st i (h i (by simp))]
    exact ih st (fun imp hm => h imp (by simp [hm]))

/-- C3 (amended): `rewriteImports` is idempotent on scripts it leaves fixed;
in particular, when the lexer output consists of imports the loop provably
leaves untouched, no suffix matches the relative-`.js` backstop regex, and
the script does not mention `/swiss-lib/`, the rewrite is the identity and
hence idempotent there.  The unrestricted idempotence of the original claim
is refuted by `C3_counterexample`: a script importing an already-rewritten
CDN URL is wrapped into a second CDN prefix on every pass. -/
theorem C3_idempotent_on_stable (ctx : RewriteCtx) (code importer : Str)
    (imports : List Imp)
    (hlex : ctx.lex code = .ok imports)
    (himps : ∀ imp ∈ imports, specUntouched code imp = true)
    (hrel : noRelJsMatch importer code = true)
    (hsl : subS (str "/swiss-lib/") code = false) :
    rewriteImports ctx (rewriteImports ctx code importer) importer =
      rewriteImports ctx code importer := by
  have hfix : rewriteImports ctx code importer = code := by
    unfold rewriteImports
    rw [hlex]
    dsimp only
    by_cases hz : imports.length = 0
    · rw [if_pos hz]
    · rw [if_neg hz]
      rw [foldImps_untouched ctx code importer imports (code, 0) himps]
      dsimp only
      by_cases hb : bareTest code = true
      · rw [if_pos hb]
      · rw [if_neg hb]
        rw [scanRepl_id (tryRelJs importer) code
          (fun t ht => noRelJsMatch_suffix hrel ht)]
        rw [if_neg (by intro hx; rw [hsl] at hx; cases hx)]
  rw [hfix]
  exact hfix

/-- C3 (counterexample to the original claim): rewriting a script whose
only specifier is an already-rewritten CDN URL wraps the URL in a second
CDN prefix, so applying the rewrite twice differs from applying it once. -/
theorem C3_counterexample :
    rewriteImports (rewriteCtxOf rctxFake lexOneDq)
        (rewriteImports (rewriteCtxOf rctxFake lexOneDq) cdnScript
          (str "/app/src/index.ts"))
        (str "/app/src/index.ts") ≠
      rewriteImports (rewriteCtxOf rctxFake lexOneDq) cdnScript
        (str "/app/src/index.ts") := by
  set_option maxRecDepth 100000 in decide

/-- C3 witness: a concrete stable script. -/
theorem C3_witness :
    rewriteImports ctxThrowingResolver
        (rewriteImports ctxThrowingResolver (str "import a from \"./b.ts\";")
          (str "/app/m.ts"))
        (str "/app/m.ts") =
      rewriteImports ctxThrowingResolver (str "import a from \"./b.ts\";")
        (str "/app/m.ts") :=
  C3_idempotent_on_stable ctxThrowingResolver (str "import a from \"./b.ts\";")
    (str "/app/m.ts") [⟨15, 21⟩] rfl (by decide) (by decide) (by decide)

/-- Token-freeness forbids the slash-delimited prefix in particular. -/
theorem noTok_slash_pattern {s : Str} (h : NoTok slTok s) :
    subS (str "/swiss-lib/") (lowerS s) = false := by
  cases hc : subS (str "/swiss-lib/") (lowerS s)
  · rfl
  · have hs : subS slTok (lowerS s) = true :=
      subS_of_pattern_part ⟨str "/", str "/", by decide⟩ hc
    have h2 : subS slTok (lowerS s) = false := h
    rw [hs] at h2
    exact h2

/-- C10 (amended): when the lexical parse of the script throws, the outer
catch returns the input text unchanged.  The stronger reading of the
original claim — that a throw in a later step also yields the input
unchanged — is refuted by `C10_counterexample`: a rejecting resolver is
caught per-import and replaced by the CDN fallback, so the returned text
differs from the input. -/
theorem C10_lex_throw_returns_input (ctx : RewriteCtx) (code importer : Str)
    (e : Unit) (hlex : ctx.lex code = .error e) :
    rewriteImports ctx code importer = code := by
  unfold rewriteImports
  rw [hlex]

/-- C10 (counterexample to the original claim): the resolver throws on
`foo`, yet the returned text is not the input — the specifier is rewritten
to the CDN fallback URL. -/
theorem C10_counterexample :
    ctxThrowingResolver.resolveFn (str "foo") (str "/app/m.ts") = .error () ∧
    rewriteImports ctxThrowingResolver (str "import x from \"foo\";")
        (str "/app/m.ts") =
      str "import x from \"https://cdn.jsdelivr.net/npm/foo/+esm\";" ∧
    str "import x from \"https://cdn.jsdelivr.net/npm/foo/+esm\";" ≠
      str "import x from \"foo\";" := by
  refine ⟨rfl, by decide, by decide⟩

/-- C10 witness: a script the lexer rejects is returned unchanged. -/
theorem C10_witness :
    rewriteImports ctxLexThrows (str "not a module") (str "/m.ts") =
      str "not a module" :=
  C10_lex_throw_returns_input ctxLexThrows (str "not a module") (str "/m.ts") () rfl

/-- C4 (amended): a change whose extension is one of `js`, `ts`, `jsx`,
`tsx` and whose path mentions `/components/` or `/pages/` is classified
`hot`; but `ui` and `uix` files are always classified `reload` — the
original claim wrongly included them in the hot set
(see `C4_counterexample`). -/
theorem C4_hot_classification :
    (∀ fp ext, extOf fp = some ext →
      (ext = str "js" ∨ ext = str "ts" ∨ ext = str "jsx" ∨ ext = str "tsx") →
      (subS (str "/components/") fp = true ∨ subS (str "/pages/") fp = true) →
      classifyChange fp = str "hot") ∧
    (∀ fp ext, extOf fp = some ext → (ext = str "ui" ∨ ext = str "uix") →
      classifyChange fp = str "reload") := by
  have hfpne : ∀ (fp ext : Str), extOf fp = some ext → ext ≠ [] → ¬ fp = [] := by
    intro fp ext hext hne hcon
    subst hcon
    have h0 : extOf ([] : Str) = some ([] : Str) := by decide
    rw [h0] at hext
    cases hext
    exact hne rfl
  constructor
  · intro fp ext hext hin hpath
    have hne : ext ≠ [] := by
      rcases hin with rfl | rfl | rfl | rfl <;> decide
    have hfp := hfpne fp ext hext hne
    unfold classifyChange
    rw [hext]
    unfold getUpdateType
    dsimp only
    rcases hin with rfl | rfl | rfl | rfl <;>
      rw [if_neg (by rintro (h | h) <;>
            first | exact absurd h (by decide) | exact hfp h),
          if_neg (by rintro (h | h | h) <;> exact absurd h (by decide)),
          if_pos (by decide), if_pos hpath]
  · intro fp ext hext hin
    have hne : ext ≠ [] := by
      rcases hin with rfl | rfl <;> decide
    have hfp := hfpne fp ext hext hne
    unfold classifyChange
    rw [hext]
    unfold getUpdateType
    dsimp only
    rcases hin with rfl | rfl <;>
      rw [if_neg (by rintro (h | h) <;>
            first | exact absurd h (by decide) | exact hfp h),
          if_neg (by rintro (h | h | h) <;> exact absurd h (by decide)),
          if_neg (by rintro (h | h | h | h) <;> exact absurd h (by decide))]

/-- C4 (counterexample to the original claim): a `.ui` file under
`/components/` is classified `reload`, not `hot`. -/
theorem C4_counterexample :
    extOf (str "/app/components/b.ui") = some (str "ui") ∧
    subS (str "/components/") (str "/app/components/b.ui") = true ∧
    classifyChange (str "/app/components/b.ui") = str "reload" ∧
    str "reload" ≠ str "hot" := by
  refine ⟨by decide, by decide, by decide, by decide⟩

/-- C4 witness: a `.ts` file under `/components/` is hot, a `.uix` file is
a reload. -/
theorem C4_witness :
    classifyChange (str "/src/components/a.ts") = str "hot" ∧
    classifyChange (str "/x.uix") = str "reload" :=
  ⟨C4_hot_classification.1 (str "/src/components/a.ts") (str "ts") (by decide)
      (Or.inr (Or.inl rfl)) (Or.inl (by decide)),
   C4_hot_classification.2 (str "/x.uix") (str "uix") (by decide)
      (Or.inr rfl)⟩

/-- C1 (amended): when the input script mentions the token `swiss-lib` in
no letter case, and the wired resolver only returns token-free results, the
rewritten script contains no case-insensitive occurrence of `/swiss-lib/`;
likewise a token-free file path under a token-free root and working
directory yields a `toUrl` result with no such occurrence.  The original
unconditional claim fails because every textual `/swiss-lib/` conversion in
the sources is case-sensitive: `C1_counterexample` exhibits an upper-case
`/SWISS-LIB/` surviving both functions verbatim. -/
theorem C1_no_prefix_leak :
    (∀ (ctx : RewriteCtx) (code importer : Str),
      NoTok slTok code →
      (∀ sp im r, ctx.resolveFn sp im = .ok r → NoTok slTok r) →
      subS (str "/swiss-lib/") (lowerS (rewriteImports ctx code importer)) = false) ∧
    (∀ (ctx : UrlCtx) (filePath r : Str),
      NoTok slTok filePath → NoTok slTok ctx.root → NoTok slTok ctx.cwd →
      toUrlE ctx filePath = .ok r →
      subS (str "/swiss-lib/") (lowerS r) = false) := by
  constructor
  · intro ctx code importer hcode hres
    exact noTok_slash_pattern (noSL_rewriteImports ctx code importer hcode hres)
  · intro ctx filePath r hfp hroot hcwd h
    exact noTok_slash_pattern (noSL_toUrlE ctx filePath r hfp hroot hcwd h)

/-- C1 (counterexample to the original claim): the conversions are
case-sensitive, so an upper-case `/SWISS-LIB/` passes through `toUrl` and
`rewriteImports` untouched while matching the prefix case-insensitively. -/
theorem C1_counterexample :
    toUrlE uctxEmpty (str "/SWISS-LIB/a.js") = .ok (str "/SWISS-LIB/a.js") ∧
    subS (str "/swiss-lib/") (lowerS (str "/SWISS-LIB/a.js")) = true ∧
    rewriteImports ctxNoImports (str "const p = \"/SWISS-LIB/x\";")
        (str "/m.ts") =
      str "const p = \"/SWISS-LIB/x\";" := by
  refine ⟨rfl, by decide, rfl⟩

/-- C1 witness: concrete token-free inputs. -/
theorem C1_witness :
    subS (str "/swiss-lib/")
        (lowerS (rewriteImports ctxThrowingResolver (str "let x = 1")
          (str "/app/m.ts"))) = false ∧
    subS (str "/swiss-lib/") (lowerS (str "/app/a.ts")) = false :=
  ⟨C1_no_prefix_leak.1 ctxThrowingResolver (str "let x = 1") (str "/app/m.ts")
      (by decide) (fun sp im r h => nomatch h),
   C1_no_prefix_leak.2 uctxEmpty (str "/app/a.ts") (str "/app/a.ts")
      (by decide) (by decide) (by decide) rfl⟩

/-!
Cache validity: the element-wise dependency comparison and the dependency
freshness loop, then the `get` characterization.
-/

theorem zip_any_ne (a : List Str) :
    ∀ b : List Str, a.length = b.length →
      (((a.zip b).any (fun q => q.1 ≠ q.2)) = false ↔ a = b) := by
  induction a with
  | nil =>
    intro b hlen
    cases b with
    | nil => simp
    | cons y ys => simp at hlen
  | cons x xs ih =>
    intro b hlen
    cases b with
    | nil => simp at hlen
    | cons y ys =>
      have hlen2 : xs.length = ys.length := by
        simp only [List.length_cons] at hlen
        omega
      simp only [List.zip_cons_cons, List.any_cons, Bool.or_eq_false_iff,
        decide_eq_false_iff_not, ne_eq, not_not, List.cons.injEq]
      rw [← ih ys hlen2]

theorem depsAll_iff (fsStat : Str → Option Nat) (l : List Str) (ts : Nat) :
    (l.all (fun d =>
      match fsStat d with
      | some dm => dm ≤ ts
      | none => false) = true) ↔
    ∀ d ∈ l, ∃ dm, fsStat d = some dm ∧ dm ≤ ts := by
  rw [List.all_eq_true]
  constructor
  · intro h d hd
    have hh := h d hd
    cases hfd : fsStat d with
    | none => rw [hfd] at hh; exact absurd hh (by simp)
    | some dm => rw [hfd] at hh; exact ⟨dm, rfl, by simpa using hh⟩
  · intro h d hd
    obtain ⟨dm, h1, h2⟩ := h d hd
    rw [h1]
    simpa using h2

/-- C2: `CompilationCache.get` returns the recorded rewritten text exactly
when an entry exists whose recorded mtime matches the current one, whose
recorded dependency list equals the freshly recomputed one element-wise,
and whose every recorded dependency still stats with mtime at most the
entry timestamp; otherwise it returns `none`. -/
theorem C2_cache_get_iff (fsStat : Str → Option Nat) (deps : Str → List Str)
    (m : Cache) (k : Str) (r : Str) :
    (cacheGet fsStat deps m k).1 = some r ↔
    ∃ e, cacheLookup m k = some e ∧ e.rewritten = r ∧
      fsStat k = some e.mtime ∧
      deps e.compiled = e.dependencies ∧
      ∀ d ∈ e.dependencies, ∃ dm, fsStat d = some dm ∧ dm ≤ e.timestamp := by
  unfold cacheGet
  cases hl : cacheLookup m k with
  | none =>
    simp
  | some e =>
    dsimp only
    cases hstat : fsStat k with
    | none =>
      simp [hstat]
    | some mt =>
      dsimp only
      simp only [decide_eq_true_eq]
      by_cases hmt : mt ≠ e.mtime
      · rw [if_pos hmt]
        constructor
        · intro h; cases h
        · rintro ⟨e2, he2, _, hst, _, _⟩
          cases he2
          have hq : mt = e.mtime := by injection hst
          exact absurd hq hmt
      · rw [if_neg hmt]
        have hmt2 : mt = e.mtime := by
          by_contra hx
          exact hmt hx
        by_cases hdep : (deps e.compiled).length ≠ e.dependencies.length ∨
            (((deps e.compiled).zip e.dependencies).any
              (fun q => q.1 ≠ q.2)) = true
        · rw [if_pos hdep]
          constructor
          · intro h; cases h
          · rintro ⟨e2, he2, _, _, hde, _⟩
            cases he2
            rcases hdep with hx | hx
            · exact absurd (by rw [hde]) hx
            · rw [(zip_any_ne (deps e.compiled) e.dependencies
                (by rw [hde])).mpr hde] at hx
              exact absurd hx (by decide)
        · rw [if_neg hdep]
          push_neg at hdep
          obtain ⟨hlen, hzip⟩ := hdep
          have hde : deps e.compiled = e.dependencies :=
            (zip_any_ne (deps e.compiled) e.dependencies hlen).mp
              (by
                cases hz : ((deps e.compiled).zip e.dependencies).any
                    (fun q => q.1 ≠ q.2)
                · rfl
                · exact absurd hz hzip)
          by_cases hall : e.dependencies.all (fun d =>
              match fsStat d with
              | some dm => dm ≤ e.timestamp
              | none => false) = true
          · rw [if_pos hall]
            constructor
            · intro h
              have hr : e.rewritten = r := by injection h
              exact ⟨e, rfl, hr, by rw [hmt2], hde,
                (depsAll_iff fsStat _ _).mp hall⟩
            · rintro ⟨e2, he2, hrw, _, _, _⟩
              cases he2
              exact congrArg some hrw
          · rw [if_neg hall]
            constructor
            · intro h; cases h
            · rintro ⟨e2, he2, _, _, _, hfresh⟩
              cases he2
              exact absurd ((depsAll_iff fsStat _ _).mpr hfresh) hall

/-!
The bounded ancestor walk of `findWorkspaceRoot` as a `find?` over the
visited chain.
-/

theorem findWsGo_eq_find (fs : WsFs) :
    ∀ (n : Nat) (cur : Str),
      findWorkspaceRootGo fs n cur = (ancChain n cur).find? (wsAccepts fs) := by
  intro n
  induction n with
  | zero => intro cur; rfl
  | succ n ih =>
    intro cur
    unfold findWorkspaceRootGo ancChain
    rw [List.find?_cons]
    cases hA : fs.access (joinP cur (str "pnpm-workspace.yaml")) <;>
      cases hL : fs.access (joinP cur (str "lib")) <;>
        cases hP : fs.access (joinP cur (str "packages"))
    all_goals
      cases hW : fs.pkgWorkspaces (joinP cur (str "package.json")) with
      | none =>
        by_cases hpar : dirnameP cur = cur <;>
          simp [wsAccepts, hA, hL, hP, hW, hpar, ih]
      | some b =>
        cases b <;> by_cases hpar : dirnameP cur = cur <;>
          simp [wsAccepts, hA, hL, hP, hW, hpar, ih]

/-- C8 (amended): `findWorkspaceRoot` walks at most ten levels and returns
the nearest visited ancestor passing the test the code actually applies:
`pnpm-workspace.yaml` together with `lib/` or `packages/`, or a
`package.json` with a truthy `workspaces` field together with `lib/`; it
returns `none` past the bound.  The original claim also admitted
`libraries/` and `modules/` as package-holding directories and any
marker/directory combination; `C8_counterexample` shows a directory holding
`pnpm-workspace.yaml` and `libraries/` that the code rejects. -/
theorem C8_workspace_walk (fs : WsFs) (root : Str) :
    findWorkspaceRoot fs root = (ancChain 10 root).find? (wsAccepts fs) :=
  findWsGo_eq_find fs 10 root

/-- C8 (counterexample to the original claim): `/a` holds
`pnpm-workspace.yaml` and `libraries/`, which the claimed test accepts,
yet `findWorkspaceRoot` returns `none`. -/
theorem C8_counterexample :
    findWorkspaceRoot fsLibraries (str "/a") = none ∧
    wsAcceptsClaim fsLibraries (str "/a") = true ∧
    (ancChain 10 (str "/a")).find? (wsAcceptsClaim fsLibraries) =
      some (str "/a") := by
  refine ⟨by decide, by decide, by decide⟩

/-!
Relative resolution with the extension probe order.
-/

theorem stripExtMR_id {s : Str} (h : hasExtMR s = false) : stripExtMR s = s := by
  unfold hasExtMR at h
  simp only [Bool.or_eq_false_iff] at h
  obtain ⟨⟨⟨⟨⟨⟨h1, h2⟩, h3⟩, h4⟩, h5⟩, h6⟩, h7⟩ := h
  unfold stripExtMR
  rw [if_neg (by simp [h5]), if_neg (by simp [h3]), if_neg (by simp [h6]),
    if_neg (by simp [h4]), if_neg (by simp [h7])]

theorem startsW_dot_not_slash {s : Str} (h : startsW s (str ".") = true) :
    startsW s (str "/") = false := by
  unfold startsW at h ⊢
  rw [List.isPrefixOf_iff_prefix] at h
  obtain ⟨t, ht⟩ := h
  cases hx : List.isPrefixOf (str "/") s
  · rfl
  · rw [List.isPrefixOf_iff_prefix] at hx
    obtain ⟨u, hu⟩ := hx
    have h2 : str "/" ++ u = str "." ++ t := hu.trans ht.symm
    have h3 : '/' = '.' := by injection h2
    exact absurd h3 (by decide)

theorem resolveRel_probe (ctx : RCtx) (specifier importer ip ext : Str)
    (hnoext : hasExtMR specifier = false)
    (hip : importerToPath ctx importer = .ok ip)
    (hfound : extListMR.find?
        (fun e => ctx.fileExists (resolveP ctx.cwd (dirnameP ip) specifier ++ e)) =
      some ext) :
    resolveRel ctx specifier importer =
      toUrlE (urlCtxOf ctx) (resolveP ctx.cwd (dirnameP ip) specifier ++ ext) := by
  unfold resolveRel
  rw [hip, exceptBind_ok]
  dsimp only
  rw [if_neg (by intro hx; rw [hnoext] at hx; cases hx)]
  unfold resolveRelExt
  rw [stripExtMR_id hnoext]
  dsimp only
  rw [hfound]

/-- C6: when resolving a relative specifier with no recognized extension,
`ModuleResolver.resolve` probes the candidate extensions in the order
`.ui`, `.uix`, `.ts`, `.tsx`, `.js`, `.jsx`, `.mjs` and serves the first
hit; in particular with both `x.ui` and `x.ts` on disk it returns the URL
of `x.ui` (see the witness). -/
theorem C6_extension_order (ctx : RCtx) (specifier importer ip ext : Str)
    (hrel : startsW specifier (str ".") = true)
    (hnoext : hasExtMR specifier = false)
    (hip : importerToPath ctx importer = .ok ip)
    (hfound : extListMR.find?
        (fun e => ctx.fileExists (resolveP ctx.cwd (dirnameP ip) specifier ++ e)) =
      some ext) :
    resolveMR ctx specifier importer =
      toUrlE (urlCtxOf ctx) (resolveP ctx.cwd (dirnameP ip) specifier ++ ext) := by
  have hslash := startsW_dot_not_slash hrel
  have hns : ¬ (¬ startsW specifier (str ".") = true ∧
      ¬ startsW specifier (str "/") = true) := fun hx => hx.1 hrel
  unfold resolveMR
  dsimp only
  cases him : ctx.importMap with
  | none =>
    dsimp only
    rw [if_neg hns, if_neg (by intro hx; rw [hslash] at hx; cases hx)]
    exact resolveRel_probe ctx specifier importer ip ext hnoext hip hfound
  | some im =>
    dsimp only
    rw [if_neg hns]
    dsimp only
    rw [if_neg hns, if_neg (by intro hx; rw [hslash] at hx; cases hx)]
    exact resolveRel_probe ctx specifier importer ip ext hnoext hip hfound

/-- C6 witness: both `x.ui` and `x.ts` exist next to the importer; the
probe returns the `.ui` candidate. -/
theorem C6_witness :
    resolveMR rctxUiTs (str "./x") (str "/src/main.ts") =
      toUrlE (urlCtxOf rctxUiTs)
        (resolveP rctxUiTs.cwd (dirnameP (str "/app/src/main.ts"))
          (str "./x") ++ str ".ui") :=
  C6_extension_order rctxUiTs (str "./x") (str "/src/main.ts")
    (str "/app/src/main.ts") (str ".ui") (by decide) (by decide) rfl (by decide)

/-!
Cache capacity and eviction.
-/

theorem cacheDel_sub {m : Cache} {k : Str} {q : Str × CacheEntry}
    (h : q ∈ cacheDel m k) : q ∈ m := (List.mem_filter.mp h).1

theorem cacheDel_len (m : Cache) (k : Str) :
    (cacheDel m k).length ≤ m.length :=
  List.length_filter_le _ _

theorem cacheGet_post (fsStat : Str → Option Nat) (deps : Str → List Str)
    (m : Cache) (k : Str) :
    (cacheGet fsStat deps m k).2 = m ∨
    (cacheGet fsStat deps m k).2 = cacheDel m k := by
  unfold cacheGet
  dsimp only
  repeat' split
  all_goals first | exact Or.inl rfl | exact Or.inr rfl

theorem cacheMapSet_len (m : Cache) (k : Str) (v : CacheEntry) :
    (cacheMapSet m k v).length ≤ m.length + 1 := by
  unfold cacheMapSet
  split
  · rw [List.length_map]; omega
  · rw [List.length_append]; simp

theorem cacheMapSet_mem {m : Cache} {k : Str} {v : CacheEntry}
    {q : Str × CacheEntry} (h : q ∈ cacheMapSet m k v) :
    q ∈ m ∨ q = (k, v) := by
  unfold cacheMapSet at h
  split at h
  · obtain ⟨p, hp, hq⟩ := List.mem_map.mp h
    by_cases hpk : p.1 = k
    · right; rw [← hq, if_pos hpk]
    · left; rw [← hq, if_neg hpk]; exact hp
  · rcases List.mem_append.mp h with h | h
    · exact Or.inl h
    · right; simpa using h

theorem cacheSet_len (fsStat : Str → Option Nat) (deps : Str → List Str)
    (now : Nat) (k c r : Str) (m : Cache)
    (hlen : m.length ≤ 1000) (hkeys : ∀ q ∈ m, q.1 ≠ []) :
    (cacheSet fsStat deps now k c r m).length ≤ 1000 := by
  cases m with
  | nil =>
    unfold cacheSet
    rw [if_neg (by decide)]
    cases hst : fsStat k
    · simpa using Nat.zero_le 1000
    · dsimp only
      exact le_trans (cacheMapSet_len _ _ _) (by simp)
  | cons p t =>
    unfold cacheSet
    by_cases hge : (p :: t).length ≥ 1000
    · rw [if_pos hge, List.head?_cons]
      dsimp only
      rw [if_pos (hkeys p (by simp))]
      have hdel : (cacheDel (p :: t) p.1).length ≤ t.length := by
        unfold cacheDel
        rw [List.filter_cons, if_neg (by simp)]
        exact List.length_filter_le _ _
      have ht : t.length ≤ 999 := by
        simp only [List.length_cons] at hlen
        omega
      cases hst : fsStat k
      · dsimp only; omega
      · dsimp only
        exact le_trans (cacheMapSet_len _ _ _) (by omega)
    · rw [if_neg hge]
      have h999 : (p :: t).length ≤ 999 := by omega
      cases hst : fsStat k
      · dsimp only; omega
      · dsimp only
        exact le_trans (cacheMapSet_len _ _ _) (by omega)

theorem cacheSet_keys (fsStat : Str → Option Nat) (deps : Str → List Str)
    (now : Nat) (k c r : Str) (m : Cache) (hk : k ≠ [])
    (hkeys : ∀ q ∈ m, q.1 ≠ []) :
    ∀ q ∈ cacheSet fsStat deps now k c r m, q.1 ≠ [] := by
  intro q hq
  unfold cacheSet at hq
  dsimp only at hq
  have hm1 : ∀ x ∈ (if m.length ≥ 1000 then
      match m.head? with
      | some p => if p.1 ≠ [] then cacheDel m p.1 else m
      | none => m
    else m), x ∈ m := by
    intro x hx
    split at hx
    · split at hx
      · split at hx
        · exact cacheDel_sub hx
        · exact hx
      · exact hx
    · exact hx
  split at hq
  · exact hkeys q (hm1 q hq)
  · rcases cacheMapSet_mem hq with h | h
    · exact hkeys q (hm1 q h)
    · rw [h]; exact hk

theorem runOp_inv {m : Cache} (op : CacheOp)
    (hlen : m.length ≤ 1000) (hkeys : ∀ q ∈ m, q.1 ≠ [])
    (hgood : op.goodKey) :
    (runOp m op).length ≤ 1000 ∧ ∀ q ∈ runOp m op, q.1 ≠ [] := by
  cases op with
  | get k fsStat deps =>
    rcases cacheGet_post fsStat deps m k with h | h
    · constructor
      · show (cacheGet fsStat deps m k).2.length ≤ 1000
        rw [h]; exact hlen
      · show ∀ q ∈ (cacheGet fsStat deps m k).2, q.1 ≠ []
        rw [h]; exact hkeys
    · constructor
      · show (cacheGet fsStat deps m k).2.length ≤ 1000
        rw [h]; exact le_trans (cacheDel_len m k) hlen
      · show ∀ q ∈ (cacheGet fsStat deps m k).2, q.1 ≠ []
        rw [h]; intro q hq; exact hkeys q (cacheDel_sub hq)
  | set k c r fsStat deps now =>
    exact ⟨cacheSet_len fsStat deps now k c r m hlen hkeys,
      cacheSet_keys fsStat deps now k c r m hgood hkeys⟩
  | clearOne k =>
    constructor
    · exact le_trans (cacheDel_len m k) hlen
    · intro q hq; exact hkeys q (cacheDel_sub hq)
  | clearAll =>
    exact ⟨Nat.zero_le 1000, by intro q hq; cases hq⟩

theorem runOps_inv (ops : List CacheOp) :
    ∀ m : Cache, m.length ≤ 1000 → (∀ q ∈ m, q.1 ≠ []) →
      (∀ op ∈ ops, op.goodKey) →
      (ops.foldl runOp m).length ≤ 1000 := by
  induction ops with
  | nil => intro m hlen _ _; exact hlen
  | cons op ops ih =>
    intro m hlen hkeys hgood
    rw [List.foldl_cons]
    obtain ⟨h1, h2⟩ := runOp_inv op hlen hkeys (hgood op (by simp))
    exact ih (runOp m op) h1 h2 (fun o ho => hgood o (by simp [ho]))

theorem cacheSet_evicts_head (fsStat : Str → Option Nat)
    (deps : Str → List Str) (now : Nat) (k c r : Str) (m : Cache)
    (p : Str × CacheEntry)
    (hlen : 1000 ≤ m.length) (hkeys : ∀ q ∈ m, q.1 ≠ [])
    (hnod : (m.map Prod.fst).Nodup) (hhead : m.head? = some p) :
    cacheSet fsStat deps now k c r m =
      match fsStat k with
      | none => m.tail
      | some mt => cacheMapSet m.tail k ⟨c, r, mt, deps c, now⟩ := by
  cases m with
  | nil => cases hhead
  | cons p0 t =>
    have hp : p0 = p := by injection hhead
    subst hp
    unfold cacheSet
    rw [if_pos hlen, List.head?_cons]
    dsimp only
    rw [if_pos (hkeys p0 (by simp))]
    have hdel : cacheDel (p0 :: t) p0.1 = t := by
      unfold cacheDel
      rw [List.filter_cons, if_neg (by simp)]
      apply List.filter_eq_self.mpr
      intro q hq
      have hnin : p0.1 ∉ t.map Prod.fst := by
        simp only [List.map_cons, List.nodup_cons] at hnod
        exact hnod.1
      simp only [decide_eq_true_eq]
      intro hq1
      exact hnin (hq1 ▸ List.mem_map_of_mem Prod.fst hq)
    rw [hdel]
    rfl

/-- The full cache has 1000 entries. -/
theorem fullCache_len : 1000 ≤ fullCache.length := by
  simp [fullCache]

theorem fullCache_keys : ∀ q ∈ fullCache, q.1 ≠ [] := by
  intro q hq
  obtain ⟨i, _, rfl⟩ := List.mem_map.mp hq
  simp

theorem fullCache_nodup : (fullCache.map Prod.fst).Nodup := by
  unfold fullCache
  rw [List.map_map]
  refine List.Nodup.map ?_ (List.nodup_range 1000)
  intro i j hij
  have hlen := congrArg List.length hij
  simp only [Function.comp_apply, List.length_replicate] at hlen
  omega

theorem fullCache_head : fullCache.head? = some (List.replicate 1 'a', entry0) := by
  set_option maxRecDepth 100000 in decide

/-- C7: after any sequence of cache operations whose `set` keys are
nonempty paths, the cache holds at most 1000 entries; and a `set` against
a full cache with distinct nonempty keys first evicts the head — the
oldest entry by insertion order — before inserting.  (The `if (firstKey)`
guard would skip eviction for an empty-string key, which `fs.stat` can
never produce an entry for.) -/
theorem C7_capacity_fifo :
    (∀ ops : List CacheOp, (∀ op ∈ ops, op.goodKey) →
      (runOps ops).length ≤ 1000) ∧
    (∀ (fsStat : Str → Option Nat) (deps : Str → List Str) (now : Nat)
        (k c r : Str) (m : Cache) (p : Str × CacheEntry),
      1000 ≤ m.length → (∀ q ∈ m, q.1 ≠ []) → (m.map Prod.fst).Nodup →
      m.head? = some p →
      cacheSet fsStat deps now k c r m =
        match fsStat k with
        | none => m.tail
        | some mt => cacheMapSet m.tail k ⟨c, r, mt, deps c, now⟩) := by
  constructor
  · intro ops hgood
    exact runOps_inv ops [] (by simp) (by intro q hq; cases hq) hgood
  · intro fsStat deps now k c r m p h1 h2 h3 h4
    exact cacheSet_evicts_head fsStat deps now k c r m p h1 h2 h3 h4

/-- C7 witness: one well-keyed `set` on the empty cache stays within
bounds, and a `set` against the full cache drops exactly its first
entry. -/
theorem C7_witness :
    (runOps [CacheOp.set (str "a") (str "c") (str "r") (fun _ => some 0)
        (fun _ => []) 0]).length ≤ 1000 ∧
    cacheSet (fun _ => none) (fun _ => []) 0 (str "b") [] [] fullCache =
      fullCache.tail :=
  ⟨C7_capacity_fifo.1 _
      (by
        intro op hop
        rw [List.mem_singleton] at hop
        subst hop
        exact (by decide : str "a" ≠ [])),
    C7_capacity_fifo.2 (fun _ => none) (fun _ => []) 0 (str "b") [] []
      fullCache (List.replicate 1 'a', entry0) fullCache_len fullCache_keys
      fullCache_nodup fullCache_head⟩

/-!
Registry scan: the traversal as a fold of first-wins insertions over the
discovery sequence.
-/

mutual
theorem scanDir_found : ∀ (dirPath : Str) (d : DirT) (depth : Nat) (m : Registry),
    scanDir dirPath d depth m =
      (found dirPath d depth).foldl (fun acc q => regInsert acc q.1 q.2) m
  | dirPath, .node nm pk sub, depth, m => by
    unfold scanDir found
    by_cases hd : depth > 15
    · rw [if_pos hd, if_pos hd]
      rfl
    · rw [if_neg hd, if_neg hd]
      exact scanEntries_found dirPath sub depth m

theorem scanEntries_found :
    ∀ (dirPath : Str) (es : List DirT) (depth : Nat) (m : Registry),
      scanEntries dirPath es depth m =
        (foundEntries dirPath es depth).foldl
          (fun acc q => regInsert acc q.1 q.2) m
  | _, [], _, m => rfl
  | dirPath, c :: cs, depth, m => by
    unfold scanEntries foundEntries
    by_cases hs : skipDir c.name = true
    · rw [if_pos hs, if_pos hs]
      exact scanEntries_found dirPath cs depth m
    · rw [if_neg hs, if_neg hs]
      dsimp only
      cases hpk : c.pkgName with
      | none =>
        rw [scanEntries_found dirPath cs depth _,
          scanDir_found (joinP dirPath c.name) c (depth + 1) m,
          List.foldl_append, List.foldl_append, List.foldl_nil]
      | some n =>
        rw [scanEntries_found dirPath cs depth _,
          scanDir_found (joinP dirPath c.name) c (depth + 1) _,
          List.foldl_append, List.foldl_append, List.foldl_cons,
          List.foldl_nil]
end

theorem regLookup_isSome_iff (m : Registry) (k : Str) :
    (regLookup m k).isSome = true ↔ k ∈ m.map Prod.fst := by
  unfold regLookup
  rw [Option.isSome_map', List.find?_isSome]
  constructor
  · rintro ⟨x, hx, hpx⟩
    simp only [decide_eq_true_eq] at hpx
    exact hpx ▸ List.mem_map_of_mem Prod.fst hx
  · intro hk
    obtain ⟨x, hx, hxk⟩ := List.mem_map.mp hk
    exact ⟨x, hx, by simp [hxk]⟩

theorem regLookup_append (m : Registry) (k v n : Str) :
    regLookup (m ++ [(k, v)]) n =
      match regLookup m n with
      | some w => some w
      | none => if k = n then some v else none := by
  induction m with
  | nil =>
    unfold regLookup
    by_cases hk : k = n
    · rw [List.nil_append,
        List.find?_cons_of_pos _ (by simp [hk]), if_pos hk]
      rfl
    · rw [List.nil_append,
        List.find?_cons_of_neg _ (by simp [hk]), if_neg hk]
      rfl
  | cons q m ih =>
    unfold regLookup
    by_cases hq : q.1 = n
    · rw [List.cons_append, List.find?_cons_of_pos _ (by simp [hq]),
        List.find?_cons_of_pos _ (by simp [hq])]
      rfl
    · rw [List.cons_append, List.find?_cons_of_neg _ (by simp [hq]),
        List.find?_cons_of_neg _ (by simp [hq])]
      exact ih

theorem regInsert_lookup (m : Registry) (k v n : Str) :
    regLookup (regInsert m k v) n =
      match regLookup m n with
      | some w => some w
      | none => if k = n then some v else none := by
  unfold regInsert
  cases hs : (regLookup m k).isSome
  · rw [if_neg (by simp [hs])]
    exact regLookup_append m k v n
  · rw [if_pos (rfl : (true : Bool) = true)]
    cases hn : regLookup m n with
    | some w => rfl
    | none =>
      by_cases hkn : k = n
      · subst hkn
        rw [hn] at hs
        simp at hs
      · rw [if_neg hkn]

theorem regFold_lookup :
    ∀ (l : List (Str × Str)) (m : Registry) (n : Str),
      regLookup (l.foldl (fun acc q => regInsert acc q.1 q.2) m) n =
        match regLookup m n with
        | some w => some w
        | none => ((l.filter (fun q => q.1 = n)).head?).map (·.2) := by
  intro l
  induction l with
  | nil =>
    intro m n
    rw [List.foldl_nil]
    cases regLookup m n <;> rfl
  | cons q l ih =>
    intro m n
    rw [List.foldl_cons, ih, regInsert_lookup]
    cases hn : regLookup m n with
    | some w => rfl
    | none =>
      dsimp only
      by_cases hq : q.1 = n
      · rw [if_pos hq, List.filter_cons, if_pos (by simp [hq])]
        rfl
      · rw [if_neg hq, List.filter_cons, if_neg (by simp [hq])]

theorem regInsert_nodup {m : Registry} (k v : Str)
    (h : (m.map Prod.fst).Nodup) : ((regInsert m k v).map Prod.fst).Nodup := by
  unfold regInsert
  cases hs : (regLookup m k).isSome
  · rw [if_neg (by simp [hs])]
    rw [List.map_append]
    rw [List.nodup_append]
    refine ⟨h, by simp, ?_⟩
    intro a ha hb
    simp only [List.map_cons, List.map_nil, List.mem_singleton] at hb
    subst hb
    have := (regLookup_isSome_iff m a).mpr ha
    rw [this] at hs
    cases hs
  · rw [if_pos (rfl : (true : Bool) = true)]
    exact h

theorem regFold_nodup :
    ∀ (l : List (Str × Str)) (m : Registry),
      (m.map Prod.fst).Nodup →
      ((l.foldl (fun acc q => regInsert acc q.1 q.2) m).map Prod.fst).Nodup := by
  intro l
  induction l with
  | nil => intro m h; exact h
  | cons q l ih =>
    intro m h
    rw [List.foldl_cons]
    exact ih _ (regInsert_nodup _ _ h)

theorem scanFold_eq (trees : Str → DirT) :
    ∀ (roots : List Str) (m : Registry),
      roots.foldl (fun acc r => scanDir r (trees r) 0 acc) m =
        ((roots.bind (fun r => found r (trees r) 0)).foldl
          (fun acc q => regInsert acc q.1 q.2) m) := by
  intro roots
  induction roots with
  | nil => intro m; rfl
  | cons r rs ih =>
    intro m
    rw [List.foldl_cons, ih, scanDir_found]
    have hb : ((r :: rs).bind (fun r => found r (trees r) 0)) =
        found r (trees r) 0 ++ rs.bind (fun r => found r (trees r) 0) := rfl
    rw [hb, List.foldl_append]

/-- C9: after `scanWorkspace`, `findPackage` returns the directory of the
first discovery of the name in traversal order — a later duplicate never
replaces an earlier record — and the resulting index holds no two records
with the same name. -/
theorem C9_registry_first_wins (trees : Str → DirT) (wsRoot : Str)
    (additional : List Str) (n : Str) :
    findPackage (scanWorkspace trees wsRoot additional) n =
      ((((scanRootsOf wsRoot additional).bind
          (fun r => found r (trees r) 0)).filter
            (fun q => q.1 = n)).head?).map (·.2) ∧
    ((scanWorkspace trees wsRoot additional).map Prod.fst).Nodup := by
  constructor
  · unfold findPackage scanWorkspace
    rw [scanFold_eq, regFold_lookup]
    rfl
  · unfold scanWorkspace
    rw [scanFold_eq]
    exact regFold_nodup _ [] (by simp)

/-!
Path-model suffix lemmas: normalization keeps a slash-free extension at the
end of the last segment.
-/

theorem splitCh_free (c : Char) :
    ∀ t : Str, (∀ x ∈ t, x ≠ c) → splitCh c t = [t] := by
  intro t
  induction t with
  | nil => intro _; rfl
  | cons x xs ih =>
    intro h
    unfold splitCh
    rw [if_neg (h x (by simp)), ih (fun y hy => h y (by simp [hy]))]

theorem splitCh_append_free (c : Char) (t : Str) (ht : ∀ x ∈ t, x ≠ c) :
    ∀ s : Str, ∃ ps p, splitCh c s = ps ++ [p] ∧
      splitCh c (s ++ t) = ps ++ [p ++ t] := by
  intro s
  induction s with
  | nil =>
    refine ⟨[], [], rfl, ?_⟩
    rw [List.nil_append, List.nil_append]
    exact splitCh_free c t ht
  | cons x xs ih =>
    obtain ⟨ps, p, h1, h2⟩ := ih
    by_cases hx : x = c
    · refine ⟨[] :: ps, p, ?_, ?_⟩
      · unfold splitCh
        rw [if_pos hx, h1]
        rfl
      · show splitCh c (x :: (xs ++ t)) = ([] :: ps) ++ [p ++ t]
        unfold splitCh
        rw [if_pos hx, h2]
        rfl
    · cases ps with
      | nil =>
        rw [List.nil_append] at h1 h2
        refine ⟨[], x :: p, ?_, ?_⟩
        · unfold splitCh
          rw [if_neg hx, h1]
          rfl
        · show splitCh c (x :: (xs ++ t)) = [] ++ [(x :: p) ++ t]
          unfold splitCh
          rw [if_neg hx, h2]
          rfl
      | cons q qs =>
        rw [List.cons_append] at h1 h2
        refine ⟨(x :: q) :: qs, p, ?_, ?_⟩
        · unfold splitCh
          rw [if_neg hx, h1]
          rfl
        · show splitCh c (x :: (xs ++ t)) = ((x :: q) :: qs) ++ [p ++ t]
          unfold splitCh
          rw [if_neg hx, h2]
          rfl

theorem normStack_append_seg (isAbs : Bool) (seg : Str)
    (h1 : seg ≠ []) (h2 : seg ≠ str ".") (h3 : seg ≠ str "..") :
    ∀ (segs stack : List Str),
      normStack isAbs stack (segs ++ [seg]) =
        seg :: normStack isAbs stack segs := by
  intro segs
  induction segs with
  | nil =>
    intro stack
    rw [List.nil_append]
    unfold normStack
    rw [if_neg (by rintro (h | h); exact h1 h; exact h2 h), if_neg h3]
    rfl
  | cons a as ih =>
    intro stack
    rw [List.cons_append]
    unfold normStack
    by_cases ha : a = [] ∨ a = str "."
    · rw [if_pos ha, if_pos ha]
      exact ih stack
    · rw [if_neg ha, if_neg ha]
      by_cases hdd : a = str ".."
      · rw [if_pos hdd, if_pos hdd]
        cases stack with
        | nil =>
          dsimp only
          cases isAbs
          · rw [if_neg (by simp), if_neg (by simp)]
            exact ih _
          · rw [if_pos rfl, if_pos rfl]
            exact ih _
        | cons top stk =>
          dsimp only
          by_cases htop : top = str ".."
          · rw [if_pos htop, if_pos htop]
            exact ih _
          · rw [if_neg htop, if_neg htop]
            exact ih _
      · rw [if_neg hdd, if_neg hdd]
        exact ih (a :: stack)

theorem joinCh_suffix_last (c : Char) :
    ∀ (l : List Str) (x : Str), x <:+ joinCh c (l ++ [x]) := by
  intro l
  induction l with
  | nil => intro x; exact List.suffix_refl x
  | cons y ys ih =>
    intro x
    have hjoin : joinCh c ((y :: ys) ++ [x]) =
        y ++ c :: joinCh c (ys ++ [x]) := by
      show joinCh c (y :: (ys ++ [x])) = _
      cases hys : ys ++ [x] with
      | nil => exact absurd hys (by simp)
      | cons z zs => rfl
    rw [hjoin]
    exact (ih x).trans ⟨y ++ [c], by simp⟩

theorem normalizeP_ends (s ext : Str) (hne : ext ≠ [])
    (hlen : 2 < ext.length) (hnos : ∀ x ∈ ext, x ≠ '/') :
    endsW (normalizeP (s ++ ext)) ext = true := by
  obtain ⟨ps, p, h1, h2⟩ := splitCh_append_free '/' ext hnos s
  have hseg1 : p ++ ext ≠ [] := by
    intro hx
    exact hne (List.append_eq_nil.mp hx).2
  have hseg2 : p ++ ext ≠ str "." := by
    intro hx
    have hl := congrArg List.length hx
    rw [List.length_append] at hl
    have h1l : (str ".").length = 1 := rfl
    rw [h1l] at hl
    omega
  have hseg3 : p ++ ext ≠ str ".." := by
    intro hx
    have hl := congrArg List.length hx
    rw [List.length_append] at hl
    have h2l : (str "..").length = 2 := rfl
    rw [h2l] at hl
    omega
  unfold normalizeP
  dsimp only
  rw [h2, normStack_append_seg _ (p ++ ext) hseg1 hseg2 hseg3 ps [],
    List.reverse_cons]
  have hsuf : ext <:+ joinCh '/'
      ((normStack (startsW (s ++ ext) (str "/")) [] ps).reverse ++ [p ++ ext]) :=
    List.IsSuffix.trans ⟨p, rfl⟩ (joinCh_suffix_last '/' _ _)
  have hbody : joinCh '/'
      ((normStack (startsW (s ++ ext) (str "/")) [] ps).reverse ++ [p ++ ext]) ≠ [] := by
    intro h0
    obtain ⟨u, hu⟩ := hsuf
    rw [h0] at hu
    rcases List.append_eq_nil.mp hu with ⟨_, hx⟩
    exact hne hx
  by_cases habs : startsW (s ++ ext) (str "/") = true
  · rw [if_pos habs]
    unfold endsW
    rw [List.isSuffixOf_iff_suffix]
    exact hsuf.trans ⟨['/'], rfl⟩
  · rw [if_neg habs, if_neg hbody]
    unfold endsW
    rw [List.isSuffixOf_iff_suffix]
    exact hsuf

theorem resolveP_ends (cwd dir x ext : Str) (hne : ext ≠ [])
    (hlen : 2 < ext.length) (hnos : ∀ y ∈ ext, y ≠ '/') :
    endsW (resolveP cwd dir (x ++ ext)) ext = true := by
  unfold resolveP
  split
  · exact normalizeP_ends x ext hne hlen hnos
  · split
    · have ha : dir ++ '/' :: (x ++ ext) = (dir ++ '/' :: x) ++ ext := by simp
      rw [ha]
      exact normalizeP_ends _ ext hne hlen hnos
    · have ha : cwd ++ '/' :: dir ++ '/' :: (x ++ ext) =
          (cwd ++ '/' :: dir ++ '/' :: x) ++ ext := by simp
      rw [ha]
      exact normalizeP_ends _ ext hne hlen hnos

/-!
The only filesystem probes of the rewriting pipeline are the `.ui` / `.uix`
candidates of the relative-extension repair, so the rewrite is invariant
under any change of the filesystem away from such paths.
-/

theorem repairExt_congr (ctx ctx2 : RewriteCtx) (importer actual : Str)
    (hcwd : ctx.cwd = ctx2.cwd)
    (hfs : ∀ p, endsW p (str ".ui") = true ∨ endsW p (str ".uix") = true →
      ctx.fileExists p = ctx2.fileExists p) :
    repairExt ctx importer actual = repairExt ctx2 importer actual := by
  unfold repairExt
  rw [hcwd]
  rw [hfs (resolveP ctx2.cwd (dirnameP importer)
      ((if startsW (jsSlice actual 0 (-3)) (str "./")
        then jsSliceFrom (jsSlice actual 0 (-3)) 2
        else jsSlice actual 0 (-3)) ++ str ".ui"))
    (Or.inl (resolveP_ends _ _ _ _ (by decide) (by decide) (by decide)))]
  rw [hfs (resolveP ctx2.cwd (dirnameP importer)
      ((if startsW (jsSlice actual 0 (-3)) (str "./")
        then jsSliceFrom (jsSlice actual 0 (-3)) 2
        else jsSlice actual 0 (-3)) ++ str ".uix"))
    (Or.inr (resolveP_ends _ _ _ _ (by decide) (by decide) (by decide)))]

theorem resolveWithFallback_congr (ctx ctx2 : RewriteCtx)
    (importer actual : Str) (hres : ctx.resolveFn = ctx2.resolveFn) :
    resolveWithFallback ctx importer actual =
      resolveWithFallback ctx2 importer actual := by
  unfold resolveWithFallback
  rw [hres]

theorem stepResolveBranch_congr (ctx ctx2 : RewriteCtx) (importer rw0 : Str)
    (off : Int) (actual : Str) (q? : Option Char) (start stop : Int)
    (hres : ctx.resolveFn = ctx2.resolveFn) :
    stepResolveBranch ctx importer rw0 off actual q? start stop =
      stepResolveBranch ctx2 importer rw0 off actual q? start stop := by
  unfold stepResolveBranch
  rw [resolveWithFallback_congr ctx ctx2 importer actual hres]

theorem stepCore_congr (ctx ctx2 : RewriteCtx) (importer rw0 : Str)
    (off : Int) (actual : Str) (q? : Option Char) (start stop : Int)
    (hcwd : ctx.cwd = ctx2.cwd) (hres : ctx.resolveFn = ctx2.resolveFn)
    (hfs : ∀ p, endsW p (str ".ui") = true ∨ endsW p (str ".uix") = true →
      ctx.fileExists p = ctx2.fileExists p) :
    stepCore ctx importer rw0 off actual q? start stop =
      stepCore ctx2 importer rw0 off actual q? start stop := by
  unfold stepCore
  rw [repairExt_congr ctx ctx2 importer actual hcwd hfs,
    stepResolveBranch_congr ctx ctx2 importer rw0 off actual q? start stop hres]

theorem stepImp_congr (ctx ctx2 : RewriteCtx) (code importer : Str)
    (st : Str × Int) (imp : Imp)
    (hcwd : ctx.cwd = ctx2.cwd) (hres : ctx.resolveFn = ctx2.resolveFn)
    (hfs : ∀ p, endsW p (str ".ui") = true ∨ endsW p (str ".uix") = true →
      ctx.fileExists p = ctx2.fileExists p) :
    stepImp ctx code importer st imp = stepImp ctx2 code importer st imp := by
  unfold stepImp
  dsimp only
  by_cases hcss : subS (str ".css") (jsSlice code imp.s imp.e) = true
  · rw [if_pos hcss, if_pos hcss]
  · rw [if_neg hcss, if_neg hcss]
    cases hex : extractSpec code imp with
    | none => rfl
    | some tup =>
      obtain ⟨a, q?, st1, st2⟩ := tup
      dsimp only
      exact stepCore_congr ctx ctx2 importer st.1 st.2 a q? st1 st2 hcwd hres hfs

theorem foldImps_congr (f g : Str × Int → Imp → Str × Int)
    (hfg : ∀ st imp, f st imp = g st imp) :
    ∀ (l : List Imp) (st : Str × Int), l.foldl f st = l.foldl g st := by
  intro l
  induction l with
  | nil => intro st; rfl
  | cons i is ih =>
    intro st
    rw [List.foldl_cons, List.foldl_cons, hfg, ih]

/-- C5 (amended): the rewriting pipeline consults the filesystem only about
paths ending in `.ui` or `.uix` — the candidate siblings of the
relative-extension repair — and never about the `.js` file a relative
specifier names: two contexts agreeing on `.ui`/`.uix` paths (and on
`cwd`, the resolver and the lexer) rewrite every script identically, no
matter how they differ on `.js` paths.  The original claim — that a
relative `.js` specifier whose file exists is left unchanged — is refuted
by `C5_counterexample`, where `./a.js` exists on disk and is still
rewritten to `./a.ts`. -/
theorem C5_fs_parametric (ctx ctx2 : RewriteCtx) (code importer : Str)
    (hcwd : ctx.cwd = ctx2.cwd) (hres : ctx.resolveFn = ctx2.resolveFn)
    (hlex : ctx.lex = ctx2.lex)
    (hfs : ∀ p, endsW p (str ".ui") = true ∨ endsW p (str ".uix") = true →
      ctx.fileExists p = ctx2.fileExists p) :
    rewriteImports ctx code importer = rewriteImports ctx2 code importer := by
  unfold rewriteImports
  rw [hlex]
  cases hl : ctx2.lex code with
  | error e => rfl
  | ok imports =>
    dsimp only
    rw [foldImps_congr (stepImp ctx code importer) (stepImp ctx2 code importer)
      (fun st imp => stepImp_congr ctx ctx2 code importer st imp hcwd hres hfs)
      imports (code, 0)]

/-- C5 (counterexample to the original claim): the file named by the
relative `.js` specifier exists, yet the specifier is rewritten. -/
theorem C5_counterexample :
    ctxAJs.fileExists (resolveP ctxAJs.cwd (dirnameP (str "/app/src/m.ts"))
        (str "./a.js")) = true ∧
    rewriteImports ctxAJs relJsScript (str "/app/src/m.ts") =
      str "import a from \"./a.ts\";" ∧
    str "import a from \"./a.ts\";" ≠ relJsScript := by
  refine ⟨by decide, by decide, by decide⟩

/-- C5 witness: the context where `/app/src/a.js` exists and the context
with an empty filesystem rewrite the script identically. -/
theorem C5_witness :
    rewriteImports ctxAJs relJsScript (str "/app/src/m.ts") =
      rewriteImports ctxThrowingResolver relJsScript (str "/app/src/m.ts") :=
  C5_fs_parametric ctxAJs ctxThrowingResolver relJsScript (str "/app/src/m.ts")
    rfl rfl rfl
    (fun p hp => by
      have hne : p ≠ str "/app/src/a.js" := by
        intro heq
        subst heq
        rcases hp with h | h <;> exact absurd h (by decide)
      show fsAJs p = false
      unfold fsAJs
      simp [hne])

end Swite
